import Mathlib

/-!
Verification development for the memory-forge indexing and retrieval engine
(tools/embeddings).  The TypeScript modules `forge`, `chunker`, `db`, `sync`
and `search` are shallowly embedded as pure Lean functions: file contents are
`String`s, the SQLite store and the JSON manifest are explicit state records,
timestamps are abstract ISO strings supplied by the caller (the engine only
ever compares them as strings), and the embedding neural network is a
black-box parameter, exactly as the SPEC treats it.  The `crypto` library
calls (`sha256` for content hashes, `md5` for chunk ids) are embedded by
executable implementations of those standard algorithms over UTF-8 bytes.
-/

set_option maxRecDepth 100000

namespace MemoryForge

/-! ## Characters and low-level string utilities -/

/-- The whitespace set of JavaScript (`\s`, `trimEnd`, `trim`): ASCII
whitespace, NBSP, BOM and the Unicode space separators. -/
def isJsWhitespace (c : Char) : Bool :=
  c = ' ' || c = '\t' || c = '\n' || c = '\r' ||
  c.toNat = 0x0B || c.toNat = 0x0C || c.toNat = 0xA0 ||
  c.toNat = 0x1680 ||
  (0x2000 ≤ c.toNat && c.toNat ≤ 0x200A) ||
  c.toNat = 0x2028 || c.toNat = 0x2029 || c.toNat = 0x202F ||
  c.toNat = 0x205F || c.toNat = 0x3000 || c.toNat = 0xFEFF

/-- Model of `String.prototype.trimEnd` on a single line (no interior newlines are
assumed; the function simply drops trailing JS whitespace). -/
def trimEndChars (l : List Char) : List Char :=
  (l.reverse.dropWhile isJsWhitespace).reverse

/-- Model of `String.prototype.trim`: drop leading and trailing JS whitespace. -/
def trimChars (l : List Char) : List Char :=
  trimEndChars (l.dropWhile isJsWhitespace)

/-- Helper for `replaceCRLF`: carries the previous character so the
left-to-right, non-overlapping scan is structural on the remaining input. -/
def replCRLFGo : Option Char → List Char → List Char
  | none, [] => []
  | some p, [] => [p]
  | none, c :: rest => replCRLFGo (some c) rest
  | some p, c :: rest =>
    if p = '\r' ∧ c = '\n' then '\n' :: replCRLFGo none rest
    else p :: replCRLFGo (some c) rest

/-- Model of `content.replace(/\r\n/g, '\n')`: left-to-right, non-overlapping
replacement of every CRLF pair by LF. -/
def replaceCRLF (l : List Char) : List Char :=
  replCRLFGo none l

/-- General character split, `s.split(sep)` for a one-character separator;
always returns at least one part, `splitOnCh sep [] = [[]]` just as
`''.split(sep) = ['']` in JS. -/
def splitOnCh (sep : Char) : List Char → List (List Char)
  | [] => [[]]
  | c :: rest =>
    if c = sep then [] :: splitOnCh sep rest
    else
      match splitOnCh sep rest with
      | [] => [[c]]
      | p :: ps => (c :: p) :: ps

/-- Model of `s.split('\n')` on character lists. -/
def splitNL (l : List Char) : List (List Char) :=
  splitOnCh '\n' l

/-- Model of `parts.join(sep)` on character lists. -/
def joinWith (sep : Char) : List (List Char) → List Char
  | [] => []
  | [p] => p
  | p :: ps => p ++ sep :: joinWith sep ps

/-- Model of `parts.join('\n')` on character lists. -/
def joinNL (ps : List (List Char)) : List Char :=
  joinWith '\n' ps

/-- Substring containment, `String.prototype.includes`. -/
def containsSub (s pat : String) : Bool :=
  decide (pat.toList <:+: s.toList)

/-- Model of `filePath.replace(/\\/g, '/')`: every backslash becomes a forward slash. -/
def slashNormalize (s : String) : String :=
  ⟨s.toList.map (fun c => if c = '\\' then '/' else c)⟩

/-- POSIX `path.basename`: the part after the last `/` (trailing slashes
stripped first). -/
def basename (s : String) : String :=
  let l := (s.toList.reverse.dropWhile (· = '/')).reverse
  ⟨(l.reverse.takeWhile (· ≠ '/')).reverse⟩

/-! ## SHA-256 (the `crypto` `sha256` used for content hashes)

Executable implementation of FIPS 180-4 SHA-256 over byte lists.  32-bit
machine words are `Nat`s reduced `% 2^32` wherever overflow can occur. -/

def w32 : Nat := 4294967296

/-- Rotation right on 32-bit words. -/
def rotr32 (x n : Nat) : Nat :=
  ((x >>> n) ||| (x <<< (32 - n))) % w32

/-- UTF-8 encoding of one character. -/
def utf8EncodeCharBytes (c : Char) : List Nat :=
  let n := c.toNat
  if n < 0x80 then [n]
  else if n < 0x800 then
    [0xC0 ||| (n >>> 6), 0x80 ||| (n &&& 0x3F)]
  else if n < 0x10000 then
    [0xE0 ||| (n >>> 12), 0x80 ||| ((n >>> 6) &&& 0x3F), 0x80 ||| (n &&& 0x3F)]
  else
    [0xF0 ||| (n >>> 18), 0x80 ||| ((n >>> 12) &&& 0x3F),
     0x80 ||| ((n >>> 6) &&& 0x3F), 0x80 ||| (n &&& 0x3F)]

/-- UTF-8 bytes of a string (what `crypto.createHash(...).update(s)` hashes). -/
def utf8Bytes (s : String) : List Nat :=
  (s.toList.map utf8EncodeCharBytes).flatten

/-- Big-endian 8-byte encoding (message bit length in the SHA padding). -/
def beBytes8 (n : Nat) : List Nat :=
  [(n >>> 56) &&& 255, (n >>> 48) &&& 255, (n >>> 40) &&& 255,
   (n >>> 32) &&& 255, (n >>> 24) &&& 255, (n >>> 16) &&& 255,
   (n >>> 8) &&& 255, n &&& 255]

/-- SHA-256 message padding: `0x80`, zeros to 56 mod 64, 8-byte bit length. -/
def sha256Pad (msg : List Nat) : List Nat :=
  let len := msg.length
  msg ++ 0x80 :: List.replicate ((119 - len % 64) % 64) 0 ++ beBytes8 (len * 8)

/-- Split a byte list into chunks of `n` bytes (structural accumulator so the
kernel can evaluate it; for `n ≥ 1` this is the usual take/drop chunking). -/
def chunksOf (n : Nat) (l : List Nat) : List (List Nat) :=
  let r := l.foldl
    (fun acc b =>
      let cur := acc.2 ++ [b]
      if cur.length = n then (acc.1 ++ [cur], ([] : List Nat)) else (acc.1, cur))
    (([] : List (List Nat)), ([] : List Nat))
  if r.2 = [] then r.1 else r.1 ++ [r.2]

/-- Big-endian 32-bit words of a 64-byte block. -/
def beWords : List Nat → List Nat
  | b0 :: b1 :: b2 :: b3 :: rest =>
    (((b0 <<< 24) ||| (b1 <<< 16) ||| (b2 <<< 8) ||| b3) % w32) :: beWords rest
  | _ => []

/-- SHA-256 round constants. -/
def sha256K : List Nat :=
  [1116352408, 1899447441, 3049323471, 3921009573, 961987163, 1508970993,
   2453635748, 2870763221, 3624381080, 310598401, 607225278, 1426881987,
   1925078388, 2162078206, 2614888103, 3248222580, 3835390401, 4022224774,
   264347078, 604807628, 770255983, 1249150122, 1555081692, 1996064986,
   2554220882, 2821834349, 2952996808, 3210313671, 3336571891, 3584528711,
   113926993, 338241895, 666307205, 773529912, 1294757372, 1396182291,
   1695183700, 1986661051, 2177026350, 2456956037, 2730485921, 2820302411,
   3259730800, 3345764771, 3516065817, 3600352804, 4094571909, 275423344,
   430227734, 506948616, 659060556, 883997877, 958139571, 1322822218,
   1537002063, 1747873779, 1955562222, 2024104815, 2227730452, 2361852424,
   2428436474, 2756734187, 3204031479, 3329325298]

/-- Extend the 16 message words to 64 (one step appends one word). -/
def sha256ExtendStep (ws : List Nat) : List Nat :=
  let i := ws.length
  let w15 := ws.getD (i - 15) 0
  let w2 := ws.getD (i - 2) 0
  let s0 := (rotr32 w15 7) ^^^ (rotr32 w15 18) ^^^ (w15 >>> 3)
  let s1 := (rotr32 w2 17) ^^^ (rotr32 w2 19) ^^^ (w2 >>> 10)
  ws ++ [(ws.getD (i - 16) 0 + s0 + ws.getD (i - 7) 0 + s1) % w32]

/-- Iterate the schedule extension 48 times. -/
def sha256Schedule (ws : List Nat) : List Nat :=
  Nat.rec ws (fun _ acc => sha256ExtendStep acc) 48

/-- The eight working variables of the compression loop. -/
structure Sha256State where
  a : Nat
  b : Nat
  c : Nat
  d : Nat
  e : Nat
  f : Nat
  g : Nat
  h : Nat

/-- One compression round with schedule word `wi` and constant `ki`. -/
def sha256Round (st : Sha256State) (kw : Nat × Nat) : Sha256State :=
  let s1 := (rotr32 st.e 6) ^^^ (rotr32 st.e 11) ^^^ (rotr32 st.e 25)
  let ch := (st.e &&& st.f) ^^^ ((st.e ^^^ (w32 - 1)) &&& st.g)
  let temp1 := (st.h + s1 + ch + kw.1 + kw.2) % w32
  let s0 := (rotr32 st.a 2) ^^^ (rotr32 st.a 13) ^^^ (rotr32 st.a 22)
  let maj := (st.a &&& st.b) ^^^ (st.a &&& st.c) ^^^ (st.b &&& st.c)
  let temp2 := (s0 + maj) % w32
  { a := (temp1 + temp2) % w32, b := st.a, c := st.b, d := st.c,
    e := (st.d + temp1) % w32, f := st.e, g := st.f, h := st.g }

/-- Process one 64-byte block, updating the eight hash values. -/
def sha256Block (hs : List Nat) (block : List Nat) : List Nat :=
  let ws := sha256Schedule (beWords block)
  let init : Sha256State :=
    { a := hs.getD 0 0, b := hs.getD 1 0, c := hs.getD 2 0, d := hs.getD 3 0,
      e := hs.getD 4 0, f := hs.getD 5 0, g := hs.getD 6 0, h := hs.getD 7 0 }
  let st := (sha256K.zip ws).foldl sha256Round init
  [(hs.getD 0 0 + st.a) % w32, (hs.getD 1 0 + st.b) % w32,
   (hs.getD 2 0 + st.c) % w32, (hs.getD 3 0 + st.d) % w32,
   (hs.getD 4 0 + st.e) % w32, (hs.getD 5 0 + st.f) % w32,
   (hs.getD 6 0 + st.g) % w32, (hs.getD 7 0 + st.h) % w32]

/-- SHA-256 initial hash values. -/
def sha256H0 : List Nat :=
  [1779033703, 3144134277, 1013904242, 2773480762,
   1359893119, 2600822924, 528734635, 1541459225]

/-- Lowercase hex digit. -/
def hexDigit (n : Nat) : Char :=
  if n < 10 then Char.ofNat (48 + n) else Char.ofNat (87 + n)

/-- Eight lowercase hex digits of a 32-bit word (big-endian nibbles). -/
def hex8 (n : Nat) : List Char :=
  [hexDigit ((n >>> 28) &&& 15), hexDigit ((n >>> 24) &&& 15),
   hexDigit ((n >>> 20) &&& 15), hexDigit ((n >>> 16) &&& 15),
   hexDigit ((n >>> 12) &&& 15), hexDigit ((n >>> 8) &&& 15),
   hexDigit ((n >>> 4) &&& 15), hexDigit (n &&& 15)]

/-- SHA-256 digest of a byte list, as lowercase hex. -/
def sha256Hex (msg : List Nat) : String :=
  ⟨((chunksOf 64 (sha256Pad msg)).foldl sha256Block sha256H0).foldr
      (fun word acc => hex8 word ++ acc) []⟩

/-- Model of `createHash('sha256').update(s).digest('hex')` on a string. -/
def sha256Str (s : String) : String :=
  sha256Hex (utf8Bytes s)

example : sha256Str "" =
    "e3b0c44298fc1c149afbf4c8996fb92427ae41e4649b934ca495991b7852b855" := by
  decide

example : sha256Str "abc" =
    "ba7816bf8f01cfea414140de5dae2223b00361a396177a9cb410ff61f20015ad" := by
  decide

/-! ## MD5 (the `crypto` `md5` used for chunk ids) -/

/-- Rotation left on 32-bit words. -/
def rotl32 (x n : Nat) : Nat :=
  ((x <<< n) ||| (x >>> (32 - n))) % w32

/-- Little-endian 8-byte encoding (message bit length in the MD5 padding). -/
def leBytes8 (n : Nat) : List Nat :=
  [n &&& 255, (n >>> 8) &&& 255, (n >>> 16) &&& 255, (n >>> 24) &&& 255,
   (n >>> 32) &&& 255, (n >>> 40) &&& 255, (n >>> 48) &&& 255,
   (n >>> 56) &&& 255]

/-- MD5 message padding: `0x80`, zeros to 56 mod 64, 8-byte bit length (LE). -/
def md5Pad (msg : List Nat) : List Nat :=
  let len := msg.length
  msg ++ 0x80 :: List.replicate ((119 - len % 64) % 64) 0 ++ leBytes8 (len * 8)

/-- Little-endian 32-bit words of a 64-byte block. -/
def leWords : List Nat → List Nat
  | b0 :: b1 :: b2 :: b3 :: rest =>
    ((b0 ||| (b1 <<< 8) ||| (b2 <<< 16) ||| (b3 <<< 24)) % w32) :: leWords rest
  | _ => []

/-- MD5 per-round left-rotation amounts. -/
def md5S : List Nat :=
  [7, 12, 17, 22, 7, 12, 17, 22, 7, 12, 17, 22, 7, 12, 17, 22,
   5, 9, 14, 20, 5, 9, 14, 20, 5, 9, 14, 20, 5, 9, 14, 20,
   4, 11, 16, 23, 4, 11, 16, 23, 4, 11, 16, 23, 4, 11, 16, 23,
   6, 10, 15, 21, 6, 10, 15, 21, 6, 10, 15, 21, 6, 10, 15, 21]

/-- MD5 sine-derived constants. -/
def md5K : List Nat :=
  [0xd76aa478, 0xe8c7b756, 0x242070db, 0xc1bdceee, 0xf57c0faf, 0x4787c62a,
   0xa8304613, 0xfd469501, 0x698098d8, 0x8b44f7af, 0xffff5bb1, 0x895cd7be,
   0x6b901122, 0xfd987193, 0xa679438e, 0x49b40821, 0xf61e2562, 0xc040b340,
   0x265e5a51, 0xe9b6c7aa, 0xd62f105d, 0x02441453, 0xd8a1e681, 0xe7d3fbc8,
   0x21e1cde6, 0xc33707d6, 0xf4d50d87, 0x455a14ed, 0xa9e3e905, 0xfcefa3f8,
   0x676f02d9, 0x8d2a4c8a, 0xfffa3942, 0x8771f681, 0x6d9d6122, 0xfde5380c,
   0xa4beea44, 0x4bdecfa9, 0xf6bb4b60, 0xbebfbc70, 0x289b7ec6, 0xeaa127fa,
   0xd4ef3085, 0x04881d05, 0xd9d4d039, 0xe6db99e5, 0x1fa27cf8, 0xc4ac5665,
   0xf4292244, 0x432aff97, 0xab9423a7, 0xfc93a039, 0x655b59c3, 0x8f0ccc92,
   0xffeff47d, 0x85845dd1, 0x6fa87e4f, 0xfe2ce6e0, 0xa3014314, 0x4e0811a1,
   0xf7537e82, 0xbd3af235, 0x2ad7d2bb, 0xeb86d391]

/-- Bitwise complement on 32-bit words. -/
def not32 (x : Nat) : Nat := x ^^^ (w32 - 1)

/-- One MD5 round `i` on state `(a, b, c, d)` with block words `m`. -/
def md5Round (m : List Nat) (st : Nat × Nat × Nat × Nat) (i : Nat) :
    Nat × Nat × Nat × Nat :=
  let (a, b, c, d) := st
  let fg : Nat × Nat :=
    if i < 16 then ((b &&& c) ||| (not32 b &&& d), i)
    else if i < 32 then ((d &&& b) ||| (not32 d &&& c), (5 * i + 1) % 16)
    else if i < 48 then (b ^^^ c ^^^ d, (3 * i + 5) % 16)
    else (c ^^^ (b ||| not32 d), (7 * i) % 16)
  let f := (fg.1 + a + md5K.getD i 0 + m.getD fg.2 0) % w32
  (d, (b + rotl32 f (md5S.getD i 0)) % w32, b, c)

/-- Process one 64-byte block of MD5. -/
def md5Block (hs : Nat × Nat × Nat × Nat) (block : List Nat) :
    Nat × Nat × Nat × Nat :=
  let m := leWords block
  let (a, b, c, d) :=
    (List.range 64).foldl (md5Round m) hs
  ((hs.1 + a) % w32, (hs.2.1 + b) % w32, (hs.2.2.1 + c) % w32,
   (hs.2.2.2 + d) % w32)

/-- Two lowercase hex digits of one byte. -/
def hexByte (n : Nat) : List Char :=
  [hexDigit ((n >>> 4) &&& 15), hexDigit (n &&& 15)]

/-- Little-endian hex rendering of a 32-bit word (MD5 digest order). -/
def leHex (n : Nat) : List Char :=
  hexByte (n &&& 255) ++ hexByte ((n >>> 8) &&& 255) ++
  hexByte ((n >>> 16) &&& 255) ++ hexByte ((n >>> 24) &&& 255)

/-- MD5 digest of a byte list, as lowercase hex. -/
def md5Hex (msg : List Nat) : String :=
  let (a, b, c, d) :=
    (chunksOf 64 (md5Pad msg)).foldl md5Block
      (0x67452301, 0xefcdab89, 0x98badcfe, 0x10325476)
  ⟨leHex a ++ leHex b ++ leHex c ++ leHex d⟩

/-- Model of `createHash('md5').update(s).digest('hex')` on a string. -/
def md5Str (s : String) : String :=
  md5Hex (utf8Bytes s)

example : md5Str "" = "d41d8cd98f00b204e9800998ecf8427e" := by decide

example : md5Str "abc" = "900150983cd24fb0d6963f7d28e17f72" := by decide

/-! ## forge module: normalization, hashing, path classification

From `forge.ts` (the module exporting `isIndexable`, `isAuditable`,
`normalizeContent`, `computeHash`). -/

/-- Model of `s.endsWith(pat)`. -/
def endsWithStr (s pat : String) : Bool :=
  decide (pat.toList <:+ s.toList)

/-- Model of `s.startsWith(pat)`. -/
def startsWithStr (s pat : String) : Bool :=
  decide (pat.toList <+: s.toList)

/-- ASCII lowercasing, the fragment of `String.prototype.toLowerCase`
relevant to the file names and extensions the engine compares. -/
def lowerStr (s : String) : String :=
  ⟨s.toList.map (fun c => if 'A' ≤ c ∧ c ≤ 'Z' then Char.ofNat (c.toNat + 32) else c)⟩

/-- Model of `normalizeContent` from forge.ts:
`content.replace(/\r\n/g, '\n').split('\n').map(l => l.trimEnd()).join('\n')`. -/
def normalizeContent (content : String) : String :=
  ⟨joinNL (((splitNL (replaceCRLF content.toList)).map trimEndChars))⟩

/-- Model of `computeHash` from forge.ts: SHA-256 of the normalized content, as
lowercase hex. -/
def computeHash (content : String) : String :=
  sha256Str (normalizeContent content)

/-- Model of `isIndexable` from forge.ts: backslashes normalized to slashes, the path
must contain `knowledge/` and end with `.md`. -/
def isIndexable (filePath : String) : Bool :=
  let normalized := slashNormalize filePath
  if ¬ containsSub normalized "knowledge/" then false
  else if ¬ endsWithStr normalized ".md" then false
  else true

/-- Model of `isAuditable` from forge.ts: basename `CLAUDE.md` or `AGENTS.md`, or the
path contains `.claude/`, `.codex/` or `.opencode/`. -/
def isAuditable (filePath : String) : Bool :=
  let normalized := slashNormalize filePath
  let fileName := basename normalized
  if fileName = "CLAUDE.md" ∨ fileName = "AGENTS.md" then true
  else if containsSub normalized ".claude/" then true
  else if containsSub normalized ".codex/" then true
  else if containsSub normalized ".opencode/" then true
  else false

example : isIndexable "knowledge/api-v2.0.md" = true := by decide
example : isIndexable "CLAUDE.md" = false := by decide
example : isIndexable ".claude/skills/x/SKILL.md" = false := by decide
example : isAuditable ".opencode/skill/y/SKILL.md" = true := by decide
example : normalizeContent "line1  \r\nline2\t\r\nline3   " =
    "line1\nline2\nline3" := by decide

/-! ## chunker module

From `chunker.ts`: `generateChunkId`, `estimateTokens`, `splitByTokenLimit`,
`extractSections`, `parseSkillFile`, `parseContextFile`, `parseFile`,
`calculateFileHash`.  File reads (`readFileSync`) are embedded by passing the
file's content alongside its path; `parseFile` returns `Except` where the
source throws.  JS string `.length` counts UTF-16 code units; the embedding
counts characters, which agrees on the BMP text the engine handles. -/

/-- Model of `MAX_CHUNK_TOKENS` from chunker.ts. -/
def MAX_CHUNK_TOKENS : Nat := 500

/-- Model of `CHARS_PER_TOKEN` from chunker.ts. -/
def CHARS_PER_TOKEN : Nat := 4

/-- Model of `generateChunkId`: first 8 hex chars of the MD5 of
`sourceFile:chunkType:index`, prefixed by the chunk type. -/
def generateChunkId (sourceFile chunkType : String) (index : Nat) : String :=
  let hash : String :=
    ⟨(md5Str (sourceFile ++ ":" ++ chunkType ++ ":" ++ toString index)).toList.take 8⟩
  chunkType ++ "-" ++ hash

/-- Model of `estimateTokens`: `Math.ceil(text.length / 4)`. -/
def estimateTokens (text : String) : Nat :=
  (text.length + 3) / 4

/-- Split on `/\n\n+/` (runs of two or more newlines), left-to-right with
greedy separators, as `text.split(/\n\n+/)` does.  Structural on a fuel
argument bounded by the input length. -/
def splitParasGo : Nat → List Char → List Char → List (List Char)
  | 0, acc, l => [acc.reverse ++ l]
  | _ + 1, acc, [] => [acc.reverse]
  | fuel + 1, acc, c :: rest =>
    if c = '\n' ∧ rest.head? = some '\n' then
      acc.reverse :: splitParasGo fuel [] (rest.dropWhile (· = '\n'))
    else
      splitParasGo fuel (c :: acc) rest

/-- Model of `text.split(/\n\n+/)` on character lists. -/
def splitParas (l : List Char) : List (List Char) :=
  splitParasGo l.length [] l

/-- Split on `/(?<=[.!?])\s+/` (whitespace runs preceded by `.`, `!` or `?`),
as the sentence fallback of `splitByTokenLimit` does. -/
def splitSentGo : Nat → List Char → Option Char → List Char → List (List Char)
  | 0, acc, _, l => [acc.reverse ++ l]
  | _ + 1, acc, _, [] => [acc.reverse]
  | fuel + 1, acc, prev, c :: rest =>
    if isJsWhitespace c ∧ (prev = some '.' ∨ prev = some '!' ∨ prev = some '?') then
      acc.reverse :: splitSentGo fuel [] none (rest.dropWhile isJsWhitespace)
    else
      splitSentGo fuel (c :: acc) (some c) rest

/-- Model of `para.split(/(?<=[.!?])\s+/)` on character lists. -/
def splitSentences (l : List Char) : List (List Char) :=
  splitSentGo l.length [] none l

/-- Model of `splitByTokenLimit` from chunker.ts: below the character budget the text
is returned whole; otherwise paragraphs are packed greedily, and an oversized
paragraph is packed sentence by sentence. -/
def splitByTokenLimit (text : String) (maxTokens : Nat) : List String :=
  let maxChars := maxTokens * CHARS_PER_TOKEN
  if text.length ≤ maxChars then [text]
  else
    let paragraphs := (splitParas text.toList).map (fun l => (⟨l⟩ : String))
    let step : List String × String → String → List String × String :=
      fun st para =>
        let chunks := st.1
        let currentChunk := st.2
        if currentChunk.length + para.length + 2 ≤ maxChars then
          (chunks, if currentChunk = "" then para else currentChunk ++ "\n\n" ++ para)
        else
          let chunks := if currentChunk = "" then chunks else chunks ++ [currentChunk]
          if para.length > maxChars then
            let sentences := (splitSentences para.toList).map (fun l => (⟨l⟩ : String))
            sentences.foldl
              (fun st sentence =>
                if st.2.length + sentence.length + 1 ≤ maxChars then
                  (st.1, if st.2 = "" then sentence else st.2 ++ " " ++ sentence)
                else
                  ((if st.2 = "" then st.1 else st.1 ++ [st.2]), sentence))
              (chunks, "")
          else (chunks, para)
    let r := paragraphs.foldl step ([], "")
    if r.2 = "" then r.1 else r.1 ++ [r.2]

/-- The heading capture of `line.match(new RegExp('^#{L}\\s+(.+)$'))`:
exactly `level` leading `#`s (a further `#` fails the `\s`), at least one
whitespace character, and a nonempty remainder; the capture backtracks to
leave at least one character. -/
def headingCapture (level : Nat) (line : List Char) : Option (List Char) :=
  if line.take level = List.replicate level '#' then
    let rest := line.drop level
    match rest with
    | [] => none
    | c :: _ =>
      if isJsWhitespace c then
        let t := rest.dropWhile isJsWhitespace
        if t ≠ [] then some t
        else if rest.length ≥ 2 then some [rest.getLastD ' '] else none
      else none
  else none

/-- The match of `line.match(/^#{1,}(?=\s)/)`: the length of the leading run
of `#`s when it is nonempty and followed by whitespace. -/
def hashRunBeforeWs (line : List Char) : Option Nat :=
  let run := line.takeWhile (· = '#')
  if run.length ≥ 1 ∧ (line.drop run.length).head?.any isJsWhitespace then
    some run.length
  else none

/-- Insertion-ordered map update, `Map.prototype.set`: overwrite in place if
the key exists, otherwise append. -/
def mapSet (m : List (String × String)) (k v : String) : List (String × String) :=
  if m.any (fun e => e.1 = k) then
    m.map (fun e => if e.1 = k then (k, v) else e)
  else m ++ [(k, v)]

/-- The per-line state of `extractSections`. -/
structure SectionsState where
  sections : List (String × String)
  currentHeading : String
  currentContent : List String
  inSection : Bool

/-- Close the current section of `extractSections`:
`sections.set(currentHeading, currentContent.join('\n').trim())`. -/
def closeSection (st : SectionsState) : List (String × String) :=
  if st.inSection ∧ st.currentHeading ≠ "" then
    mapSet st.sections st.currentHeading
      ⟨trimChars (joinNL (st.currentContent.map String.toList))⟩
  else st.sections

/-- One line of the `extractSections` loop. -/
def sectionsStep (level : Nat) (st : SectionsState) (line : String) : SectionsState :=
  match headingCapture level line.toList with
  | some h =>
    { sections := closeSection st, currentHeading := ⟨h⟩,
      currentContent := [], inSection := true }
  | none =>
    if st.inSection then
      match hashRunBeforeWs line.toList with
      | some k =>
        if k < level then
          { sections := closeSection st, currentHeading := "",
            currentContent := [], inSection := false }
        else { st with currentContent := st.currentContent ++ [line] }
      | none => { st with currentContent := st.currentContent ++ [line] }
    else st

/-- Model of `extractSections` from chunker.ts: the insertion-ordered map from
level-`level` headings to their trimmed section bodies. -/
def extractSections (content : String) (level : Nat) : List (String × String) :=
  let lines := (splitNL content.toList).map (fun l => (⟨l⟩ : String))
  closeSection (lines.foldl (sectionsStep level)
    { sections := [], currentHeading := "", currentContent := [], inSection := false })

example : extractSections "# T\n\n## A\n\na-body\n\n## B\n\nb-body\n" 2 =
    [("A", "a-body"), ("B", "b-body")] := by decide

/-! ### Frontmatter (the external `gray-matter` library)

`matter(fileContent)` is embedded for the engine's own file format: a
`---`-delimited block of simple `key: value` lines.  A file that does not
open with `---`, or whose block is never closed, is treated as all body with
no data — matching both the library and the SPEC's "malformed frontmatter is
silently ignored". -/

/-- Model of `filePath.split('/').pop()`. -/
def lastComponent (s : String) : String :=
  ⟨(splitOnCh '/' s.toList).getLastD []⟩

/-- Model of `filePath.split('/').slice(-2)[0]`. -/
def secondToLastComponent (s : String) : String :=
  let ps := splitOnCh '/' s.toList
  ⟨(ps.drop (ps.length - 2)).headD []⟩

/-- Model of `s.trim()` as a string. -/
def trimStr (s : String) : String :=
  ⟨trimChars s.toList⟩

/-- Integer parse of a frontmatter scalar (`importance: 7`). -/
def parseIntOpt (s : String) : Option Int :=
  let digits := fun (l : List Char) =>
    if l ≠ [] ∧ l.all (fun c => '0' ≤ c ∧ c ≤ '9') then
      some (l.foldl (fun (acc : Nat) c => acc * 10 + (c.toNat - 48)) 0)
    else none
  match s.toList with
  | '-' :: rest => (digits rest).map (fun n => -(n : Int))
  | l => (digits l).map (fun n => (n : Int))

/-- The frontmatter keys the engine reads (`SkillFrontmatter`). -/
structure Frontmatter where
  name : Option String := none
  description : Option String := none
  importance : Option Int := none
deriving DecidableEq, Repr

/-- Record one `key: value` line into the frontmatter data. -/
def fmRecord (fm : Frontmatter) (line : String) : Frontmatter :=
  match splitOnCh ':' line.toList with
  | key :: rest =>
    let k := trimStr ⟨key⟩
    let v := trimStr ⟨joinWith ':' rest⟩
    if k = "name" then { fm with name := some v }
    else if k = "description" then { fm with description := some v }
    else if k = "importance" then { fm with importance := parseIntOpt v }
    else fm
  | [] => fm

/-- Model of `matter(fileContent)`: the parsed data and the body after the block. -/
def matterSplit (content : String) : Frontmatter × String :=
  let lines := (splitNL content.toList).map (fun l => (⟨l⟩ : String))
  match lines with
  | first :: rest =>
    if first = "---" then
      match rest.findIdx? (fun l => l = "---") with
      | some j =>
        let dataLines := rest.take j
        let bodyLines := rest.drop (j + 1)
        (dataLines.foldl fmRecord {}, ⟨joinNL (bodyLines.map String.toList)⟩)
      | none => ({}, content)
    else ({}, content)
  | [] => ({}, content)

/-! ### Chunks and the parse functions -/

/-- An indexed chunk (`Chunk` from types.ts; the `metadata` object is
flattened to the two fields the engine writes). -/
structure Chunk where
  id : String
  sourceFile : String
  sourceType : String
  chunkType : String
  content : String
  heading : Option String
  priority : Int
  skillName : Option String
  sectionPath : Option String
deriving DecidableEq, Repr

/-- Assoc lookup in an insertion-ordered map, `Map.prototype.get`. -/
def mapGet (m : List (String × String)) (k : String) : Option String :=
  (m.find? (fun e => e.1 = k)).map (fun e => e.2)

/-- Model of `parseSkillFile` from chunker.ts: frontmatter chunk, the four canonical
sections with fixed priorities, then the remaining H2 sections. -/
def parseSkillFile (filePath content : String) : List Chunk :=
  let fm := (matterSplit content).1
  let body := (matterSplit content).2
  let skillName :=
    match fm.name with
    | some n => if n = "" then secondToLastComponent filePath else n
    | none => secondToLastComponent filePath
  let fmChunks : List Chunk :=
    match fm.name, fm.description with
    | some n, some d =>
      if n ≠ "" ∧ d ≠ "" then
        [{ id := generateChunkId filePath "frontmatter" 0,
           sourceFile := filePath, sourceType := "skill",
           chunkType := "frontmatter",
           content := "Skill: " ++ n ++ "\n\nDescription: " ++ d,
           heading := none, priority := 10,
           skillName := some skillName, sectionPath := none }]
      else []
    | _, _ => []
  let sections := extractSections body 2
  let i0 := fmChunks.length
  let probChunks : List Chunk :=
    match mapGet sections "Problem" with
    | some p =>
      if p ≠ "" then
        [{ id := generateChunkId filePath "problem" i0,
           sourceFile := filePath, sourceType := "skill", chunkType := "problem",
           content := "Problem:\n" ++ p, heading := some "Problem", priority := 8,
           skillName := some skillName, sectionPath := some "Problem" }]
      else []
    | none => []
  let i1 := i0 + probChunks.length
  let trigChunks : List Chunk :=
    match mapGet sections "Trigger Conditions" with
    | some t =>
      if t ≠ "" then
        [{ id := generateChunkId filePath "trigger" i1,
           sourceFile := filePath, sourceType := "skill", chunkType := "trigger",
           content := "Trigger Conditions for " ++ skillName ++ ":\n" ++ t,
           heading := some "Trigger Conditions", priority := 9,
           skillName := some skillName, sectionPath := some "Trigger Conditions" }]
      else []
    | none => []
  let i2 := i1 + trigChunks.length
  let solChunks : List Chunk :=
    match mapGet sections "Solution" with
    | some s =>
      if s ≠ "" then
        let parts := splitByTokenLimit s MAX_CHUNK_TOKENS
        (List.range parts.length).map (fun i =>
          { id := generateChunkId filePath "solution" (i2 + i),
            sourceFile := filePath, sourceType := "skill", chunkType := "solution",
            content := "Solution for " ++ skillName ++ " (part " ++
              toString (i + 1) ++ "/" ++ toString parts.length ++ "):\n" ++
              parts.getD i "",
            heading := some "Solution", priority := 7,
            skillName := some skillName, sectionPath := some "Solution" })
      else []
    | none => []
  let i3 := i2 + solChunks.length
  let verChunks : List Chunk :=
    match mapGet sections "Verification" with
    | some v =>
      if v ≠ "" then
        [{ id := generateChunkId filePath "verification" i3,
           sourceFile := filePath, sourceType := "skill",
           chunkType := "verification",
           content := "Verification for " ++ skillName ++ ":\n" ++ v,
           heading := some "Verification", priority := 5,
           skillName := some skillName, sectionPath := some "Verification" }]
      else []
    | none => []
  let i4 := i3 + verChunks.length
  let otherChunks : List Chunk :=
    (sections.foldl
      (fun (st : List Chunk × Nat) sec =>
        if sec.1 = "Problem" ∨ sec.1 = "Trigger Conditions" ∨
            sec.1 = "Solution" ∨ sec.1 = "Verification" then st
        else
          let parts := splitByTokenLimit sec.2 MAX_CHUNK_TOKENS
          ((List.range parts.length).foldl
            (fun (st : List Chunk × Nat) i =>
              (st.1 ++
                [{ id := generateChunkId filePath "section" st.2,
                   sourceFile := filePath, sourceType := "skill",
                   chunkType := "section",
                   content := sec.1 ++ " for " ++ skillName ++ ":\n" ++
                     parts.getD i "",
                   heading := some sec.1, priority := 4,
                   skillName := some skillName, sectionPath := some sec.1 }],
               st.2 + 1))
            st))
      (([] : List Chunk), i4)).1
  fmChunks ++ probChunks ++ trigChunks ++ solChunks ++ verChunks ++ otherChunks

/-- Model of `parseContextFile` from chunker.ts: split a CLAUDE.md/AGENTS.md-style
context file by H2 headings, refining oversized sections by H3 and by the
token budget, and falling back to whole-file `full` chunks when no sections
were found. -/
def parseContextFile (filePath content : String) : List Chunk :=
  let fileName := lastComponent filePath
  let sourceType :=
    if containsSub (lowerStr fileName) "agent" then "agents-md" else "claude-md"
  let body := (matterSplit content).2
  let h2 := extractSections body 2
  let folded := h2.foldl
    (fun (st : List Chunk × Nat) sec =>
      let heading := sec.1
      let sectionContent := sec.2
      if estimateTokens sectionContent > MAX_CHUNK_TOKENS then
        let h3 := extractSections ("## " ++ heading ++ "\n" ++ sectionContent) 3
        if h3.length > 1 then
          h3.foldl
            (fun st sub =>
              let parts := splitByTokenLimit sub.2 MAX_CHUNK_TOKENS
              parts.foldl
                (fun (st : List Chunk × Nat) part =>
                  (st.1 ++
                    [{ id := generateChunkId filePath "section" st.2,
                       sourceFile := filePath, sourceType := sourceType,
                       chunkType := "section",
                       content := heading ++ " > " ++ sub.1 ++ ":\n" ++ part,
                       heading := some (heading ++ " > " ++ sub.1), priority := 6,
                       skillName := none,
                       sectionPath := some (heading ++ " > " ++ sub.1) }],
                   st.2 + 1))
                st)
            st
        else
          (splitByTokenLimit sectionContent MAX_CHUNK_TOKENS).foldl
            (fun (st : List Chunk × Nat) part =>
              (st.1 ++
                [{ id := generateChunkId filePath "section" st.2,
                   sourceFile := filePath, sourceType := sourceType,
                   chunkType := "section",
                   content := heading ++ ":\n" ++ part,
                   heading := some heading, priority := 6,
                   skillName := none, sectionPath := some heading }],
               st.2 + 1))
            st
      else
        (st.1 ++
          [{ id := generateChunkId filePath "section" st.2,
             sourceFile := filePath, sourceType := sourceType,
             chunkType := "section",
             content := heading ++ ":\n" ++ sectionContent,
             heading := some heading, priority := 6,
             skillName := none, sectionPath := some heading }],
         st.2 + 1))
    (([] : List Chunk), 0)
  let chunks := folded.1
  if chunks = [] ∧ trimStr body ≠ "" then
    let parts := splitByTokenLimit body MAX_CHUNK_TOKENS
    (List.range parts.length).map (fun i =>
      { id := generateChunkId filePath "full" i,
        sourceFile := filePath, sourceType := sourceType, chunkType := "full",
        content := parts.getD i "", heading := none, priority := 5,
        skillName := none, sectionPath := none })
  else chunks

/-- Model of `ParseResult` from chunker.ts. -/
structure ParseResult where
  chunks : List Chunk
  importance : Option Int
deriving DecidableEq, Repr

/-- Model of `parseFile` from chunker.ts: dispatch on the lowercased file name;
`skill.md` suffixes parse as skills (with the frontmatter importance),
`claude.md`/`agents.md` suffixes parse as context files, and anything else
throws `Unsupported file type` — embedded as `Except.error`. -/
def parseFile (filePath content : String) : Except String ParseResult :=
  let fileName := lowerStr filePath
  if endsWithStr fileName "skill.md" then
    .ok { chunks := parseSkillFile filePath content,
          importance := (matterSplit content).1.importance }
  else if endsWithStr fileName "claude.md" ∨ endsWithStr fileName "agents.md" then
    .ok { chunks := parseContextFile filePath content, importance := none }
  else
    .error ("Unsupported file type: " ++ filePath)

/-- Model of `calculateFileHash` from chunker.ts: SHA-256 of the raw file content
(note: not the normalized content). -/
def calculateFileHash (content : String) : String :=
  sha256Str content

/-! ## db module: the SQLite store as explicit state

From `db.ts`.  Timestamps are the ISO strings the source writes; SQLite
compares TEXT columns bytewise, which on these ASCII strings is the
character order used here.  `getIndexMetadata`/`setEmbeddingModel` are not
part of the provided sources (only their callers are); the metadata record
is modelled from the spec: "Index metadata — exactly one record holding the
embedding-model identifier", read and written as a scalar. -/

/-- Model of `DEFAULT_IMPORTANCE` from db.ts. -/
def DEFAULT_IMPORTANCE : Int := 5

/-- A row of the `files` table. -/
structure FileRecord where
  path : String
  hash : String
  indexedAt : String
  lastAccessed : String
  accessCount : Nat
  importance : Int
  chunkCount : Nat
deriving DecidableEq, Repr

/-- A row of the `chunks` table (the chunk plus its stored vector). -/
structure DbChunkRow where
  chunk : Chunk
  embedding : List ℚ
deriving DecidableEq, Repr

/-- The store: `files`, `chunks`, and the index-metadata model id
(the latter modelled from the spec, see the section comment). -/
structure Db where
  files : List FileRecord
  chunks : List DbChunkRow
  embeddingModel : Option String
deriving DecidableEq, Repr

/-- Model of `upsertFileChunks`: one transaction deleting the file's previous chunks
and record and inserting the new record (access count 0, importance from
frontmatter or the default) and chunks. -/
def upsertFileChunks (db : Db) (filePath fileHash : String)
    (chunks : List (Chunk × List ℚ)) (importance : Option Int)
    (now : String) : Db :=
  let fileImportance := importance.getD DEFAULT_IMPORTANCE
  { db with
    files := db.files.filter (fun f => f.path ≠ filePath) ++
      [{ path := filePath, hash := fileHash, indexedAt := now,
         lastAccessed := now, accessCount := 0,
         importance := fileImportance, chunkCount := chunks.length }],
    chunks := db.chunks.filter (fun r => r.chunk.sourceFile ≠ filePath) ++
      chunks.map (fun c => { chunk := c.1, embedding := c.2 }) }

/-- Model of `removeFile`: transactional cascade delete of a file and its chunks. -/
def removeFile (db : Db) (filePath : String) : Db :=
  { db with
    files := db.files.filter (fun f => f.path ≠ filePath),
    chunks := db.chunks.filter (fun r => r.chunk.sourceFile ≠ filePath) }

/-- Model of `clearDatabase`: delete all chunks and files (metadata untouched). -/
def clearDatabase (db : Db) : Db :=
  { db with files := [], chunks := [] }

/-- Model of `touchFiles`: bump `access_count` and set `last_accessed = now` for each
given path. -/
def touchFiles (db : Db) (filePaths : List String) (now : String) : Db :=
  filePaths.foldl
    (fun db p =>
      { db with
        files := db.files.map (fun f =>
          if f.path = p then
            { f with lastAccessed := now, accessCount := f.accessCount + 1 }
          else f) })
    db

/-- Model of `RetentionConfig` from db.ts. -/
structure RetentionConfig where
  maxFiles : Option Int := none
  maxAgeDays : Option Int := none
  protectImportance : Option Int := none
deriving DecidableEq, Repr

/-- The SQL `ORDER BY importance ASC, access_count ASC, last_accessed ASC`
as a boolean "less or equal" on file rows. -/
def retentionLe (a b : FileRecord) : Bool :=
  if a.importance ≠ b.importance then a.importance < b.importance
  else if a.accessCount ≠ b.accessCount then a.accessCount < b.accessCount
  else if a.lastAccessed ≠ b.lastAccessed then
    decide (a.lastAccessed < b.lastAccessed)
  else true

/-- Stable insertion (after every element that is `le` the new one). -/
def insertLe {α : Type} (le : α → α → Bool) (x : α) : List α → List α
  | [] => [x]
  | y :: ys => if le y x then y :: insertLe le x ys else x :: y :: ys

/-- Stable insertion sort by a boolean `le`. -/
def sortByLe {α : Type} (le : α → α → Bool) (l : List α) : List α :=
  l.foldl (fun acc x => insertLe le x acc) []

/-- Result rows of the age query of `getStaleFiles`: files below the
protection threshold whose `last_accessed` is older than the cutoff or
empty, in the query's sort order. -/
def ageStaleList (db : Db) (thr : Int) (cutoffIso : String) : List String :=
  (sortByLe retentionLe (db.files.filter (fun f =>
      (decide (f.lastAccessed < cutoffIso) || f.lastAccessed = "") &&
      f.importance < thr))).map (fun f => f.path)

/-- Result rows of the LRU query of `getStaleFiles` before its `LIMIT`:
files below the protection threshold in the query's sort order. -/
def deletableSorted (db : Db) (thr : Int) : List FileRecord :=
  sortByLe retentionLe (db.files.filter (fun f => f.importance < thr))

/-- Model of `getStaleFiles` from db.ts.  `cutoffIso` is the ISO rendering of
`now − maxAgeDays` that the source computes before its age query; the date
arithmetic itself is irrelevant to every property proved here, so the
cutoff is taken as the caller-supplied clock value. -/
def getStaleFiles (db : Db) (config : RetentionConfig)
    (cutoffIso : String) : List String :=
  let protectThreshold := config.protectImportance.getD 8
  let staleFiles : List String :=
    match config.maxAgeDays with
    | some _ => ageStaleList db protectThreshold cutoffIso
    | none => []
  match config.maxFiles with
  | some maxFiles =>
    let deletableCount : Int :=
      ((db.files.filter (fun f => f.importance < protectThreshold)).length : Int)
    let protectedCount : Int :=
      ((db.files.filter (fun f => protectThreshold ≤ f.importance)).length : Int)
    let effectiveLimit : Int := max 0 (maxFiles - protectedCount)
    if effectiveLimit < deletableCount then
      let toRemove := deletableCount - effectiveLimit
      let lruFiles :=
        ((deletableSorted db protectThreshold).take toRemove.toNat).map
          (fun f => f.path)
      lruFiles.foldl
        (fun acc p => if acc.contains p then acc else acc ++ [p]) staleFiles
    else staleFiles
  | none => staleFiles

/-- Model of `forgetStaleFiles` from db.ts: remove every stale file; returns the
removed paths and the resulting store. -/
def forgetStaleFiles (db : Db) (config : RetentionConfig)
    (cutoffIso : String) : List String × Db :=
  let staleFiles := getStaleFiles db config cutoffIso
  (staleFiles, staleFiles.foldl (fun db p => removeFile db p) db)

/-! ## sync module

From `sync.ts`.  The filesystem below the project root is a finite map from
relative path to content (`relative(projectRoot, ·)` is the identity in this
relative-path model, so the absolute paths the store keeps and the relative
paths the manifest keeps coincide, as they do for the comparisons the source
performs).  The embedder is a black-box parameter `embed`, its id the
parameter `currentModel`; clock readings are passed in as `now`. -/

/-- The filesystem: relative path to file content. -/
def FS : Type := List (String × String)

/-- Model of `readFileSync` of a discovered file. -/
def fsLookup (fs : FS) (p : String) : String :=
  (((fs.find? (fun e => e.1 = p)).map (fun e => e.2))).getD ""

/-- The manifest (`{ files: { relPath: hash }, lastIndexed }`). -/
structure Manifest where
  files : List (String × String)
  lastIndexed : String
deriving DecidableEq, Repr

/-- JS object key lookup in the manifest `files` map. -/
def mLookup (m : List (String × String)) (k : String) : Option String :=
  ((m.find? (fun e => e.1 = k))).map (fun e => e.2)

/-- The engine state a sync acts on: the store plus the manifest. -/
structure SyncState where
  db : Db
  manifest : Manifest
deriving DecidableEq, Repr

/-- Fresh project: empty store (no metadata row) and empty manifest, as
`loadManifest` yields when no manifest file exists. -/
def initState : SyncState :=
  { db := { files := [], chunks := [], embeddingModel := none },
    manifest := { files := [], lastIndexed := "" } }

/-- Model of `findKnowledgeFiles` from sync.ts: the recursive walk from
`root/knowledge` collecting `.md` files.  The walk recurses into every
subdirectory unconditionally (there is no skip list in the source), so on
the flat file map it is exactly the `knowledge/` path-prefix filter. -/
def findKnowledgeFiles (fs : FS) : List String :=
  ((fs.filter (fun e =>
    startsWithStr e.1 "knowledge/" && endsWithStr e.1 ".md")).map Prod.fst)

/-- Model of `discoverFiles` from sync.ts: the knowledge walk filtered through
`isIndexable` on the relative path. -/
def discoverFiles (fs : FS) : List String :=
  (findKnowledgeFiles fs).filter (fun file => isIndexable file)

/-- Model of `checkModelConsistency` from sync.ts: no stored model id (or an empty
one) or a matching id does nothing; a mismatch clears the store and resets
the manifest file to `{ files: {}, lastIndexed: '' }`, returning `true`. -/
def checkModelConsistency (st : SyncState) (currentModel : String) :
    Bool × SyncState :=
  match st.db.embeddingModel with
  | none => (false, st)
  | some m =>
    if m = "" then (false, st)
    else if m = currentModel then (false, st)
    else
      (true,
        { db := clearDatabase st.db,
          manifest := { files := [], lastIndexed := "" } })

/-- The partition computed by `getFilesToIndex`. -/
structure Partition where
  toIndex : List String
  toRemove : List String
  unchanged : List String
deriving DecidableEq, Repr

/-- One file of the change-detection loop of `getFilesToIndex`: missing,
empty or different manifest hash means re-index, matching hash means
unchanged. -/
def partitionStep (fs : FS) (m : List (String × String))
    (acc : List String × List String) (file : String) :
    List String × List String :=
  let contentHash := computeHash (fsLookup fs file)
  match mLookup m file with
  | none => (acc.1 ++ [file], acc.2)
  | some h =>
    if h = "" ∨ h ≠ contentHash then (acc.1 ++ [file], acc.2)
    else (acc.1, acc.2 ++ [file])

/-- Model of `getFilesToIndex` from sync.ts: a discovered file whose manifest
hash is missing, empty or different from the `computeHash` of its current
content is re-indexed, otherwise unchanged; manifest keys and stored file
paths that are no longer discovered are removed (the second source
deduplicated against the first). -/
def getFilesToIndex (fs : FS) (st : SyncState) (files : List String) :
    Partition :=
  let part := files.foldl (partitionStep fs st.manifest.files) ([], [])
  let toRemove₁ :=
    ((st.manifest.files.map (fun e => e.1))).filter
      (fun p => ¬ files.contains p)
  let toRemove :=
    toRemove₁ ++
      ((st.db.files.map (fun f => f.path))).filter
        (fun p => ¬ files.contains p ∧ ¬ toRemove₁.contains p)
  { toIndex := part.1, toRemove := toRemove, unchanged := part.2 }

/-- The 2000-character truncation `generateEmbeddings` applies before
embedding each chunk text. -/
def truncate2000 (s : String) : String :=
  ⟨s.toList.take 2000⟩

/-- Model of `indexFile` from sync.ts: parse, skip entirely when no chunks were
produced (note: the manifest update in the caller still happens), otherwise
embed every chunk and upsert with the raw-content hash. -/
def indexFile (embed : String → List ℚ) (fs : FS) (db : Db)
    (filePath : String) (now : String) : Except String (Nat × Db) :=
  let content := fsLookup fs filePath
  match parseFile filePath content with
  | .error e => .error e
  | .ok pr =>
    if pr.chunks = [] then .ok (0, db)
    else
      let chunksWithEmbeddings :=
        pr.chunks.map (fun c => (c, embed (truncate2000 c.content)))
      let fileHash := calculateFileHash content
      .ok (pr.chunks.length,
        upsertFileChunks db filePath fileHash chunksWithEmbeddings
          pr.importance now)

/-- Model of `SyncResult` from types.ts. -/
structure SyncResult where
  added : List String
  updated : List String
  removed : List String
  unchanged : List String
deriving DecidableEq, Repr

/-- The removal loop shared by `syncProject` and `ensureIndexFresh`:
`removeFile` plus deletion of the manifest key. -/
def applyRemovals (st : SyncState) (toRemove : List String) : SyncState :=
  toRemove.foldl
    (fun st file =>
      { db := removeFile st.db file,
        manifest := { st.manifest with
          files := st.manifest.files.filter (fun e => e.1 ≠ file) } })
    st

/-- The indexing loop of `syncProject`: index each file, set its manifest
hash to the `computeHash` of its content, and record it as added or updated
according to whether a manifest entry existed. -/
def processIndex (embed : String → List ℚ) (fs : FS) (now : String) :
    List String → SyncState → SyncResult →
    Except String (SyncResult × SyncState)
  | [], st, res => .ok (res, st)
  | file :: rest, st, res =>
    let wasIndexed := (mLookup st.manifest.files file).isSome
    match indexFile embed fs st.db file now with
    | .error e => .error e
    | .ok (_, db') =>
      let content := fsLookup fs file
      let manifest' := { st.manifest with
        files := mapSet st.manifest.files file (computeHash content) }
      let res' :=
        if wasIndexed then { res with updated := res.updated ++ [file] }
        else { res with added := res.added ++ [file] }
      processIndex embed fs now rest { db := db', manifest := manifest' } res'

/-- Model of `syncProject` from sync.ts: model check, discovery, partition, removals,
indexing, then always `lastIndexed := now`, save, and record the model id. -/
def syncProject (embed : String → List ℚ) (currentModel : String) (fs : FS)
    (st : SyncState) (now : String) :
    Except String (SyncResult × SyncState) :=
  let st₁ := (checkModelConsistency st currentModel).2
  let files := discoverFiles fs
  let part := getFilesToIndex fs st₁ files
  let st₂ := applyRemovals st₁ part.toRemove
  match processIndex embed fs now part.toIndex st₂
      { added := [], updated := [], removed := part.toRemove,
        unchanged := part.unchanged } with
  | .error e => .error e
  | .ok (res, st₃) =>
    .ok (res,
      { db := { st₃.db with embeddingModel := some currentModel },
        manifest := { st₃.manifest with lastIndexed := now } })

/-- Model of `ensureIndexFresh` from sync.ts: same machinery, but short-circuits with
`false` (and no writes) when the model is unchanged and the partition shows
nothing to index or remove. -/
def ensureIndexFresh (embed : String → List ℚ) (currentModel : String)
    (fs : FS) (st : SyncState) (now : String) :
    Except String (Bool × SyncState) :=
  let mc := checkModelConsistency st currentModel
  let files := discoverFiles fs
  let part := getFilesToIndex fs mc.2 files
  if part.toIndex = [] ∧ part.toRemove = [] ∧ mc.1 = false then
    .ok (false, mc.2)
  else
    let st₂ := applyRemovals mc.2 part.toRemove
    match processIndex embed fs now part.toIndex st₂
        { added := [], updated := [], removed := part.toRemove,
          unchanged := part.unchanged } with
    | .error e => .error e
    | .ok (_, st₃) =>
      .ok (true,
        { db := { st₃.db with embeddingModel := some currentModel },
          manifest := { st₃.manifest with lastIndexed := now } })

/-! ## search module

From `search.ts`.  Scoring over the stored chunks: the cosine similarity of
the floating-point source (a dot product over square-root norms, irrational
in general) is the black-box parameter `sim` applied to the query embedding
and the stored vector; all arithmetic on scores is over `ℚ`, the exact
counterpart of the JS number formula. -/

/-- Model of `DEFAULT_LIMIT` from search.ts. -/
def DEFAULT_LIMIT : Nat := 5

/-- Model of `DEFAULT_THRESHOLD` from search.ts. -/
def DEFAULT_THRESHOLD : ℚ := 3 / 10

/-- The score formula of `search`:
`adjustedScore = similarity * (1 + (priority / 10) * 0.2)`. -/
def adjustedScore (priority : Int) (similarity : ℚ) : ℚ :=
  similarity * (1 + ((priority : ℚ) / 10) * (2 / 10))

/-- Stable descending sort by score, the JS stable
`sort((a, b) => b.score - a.score)`: each element is inserted after every
already-placed element of greater or equal score. -/
def sortScoreDesc (l : List (DbChunkRow × ℚ)) : List (DbChunkRow × ℚ) :=
  sortByLe (fun a b => decide (b.2 ≤ a.2)) l

/-- The filtering loop of `search`: every chunk whose adjusted score reaches
the threshold is pushed with its score, in store order. -/
def scoredChunksOf (sim : List ℚ → List ℚ → ℚ) (queryEmbedding : List ℚ)
    (chunks : List DbChunkRow) (threshold : ℚ) : List (DbChunkRow × ℚ) :=
  chunks.foldl
    (fun acc c =>
      let similarity := sim queryEmbedding c.embedding
      let s := adjustedScore c.chunk.priority similarity
      if threshold ≤ s then acc ++ [(c, s)] else acc)
    []

/-- The ranking core of `search` from search.ts: score every stored chunk,
keep those at or above the threshold (below is discarded), sort descending
by adjusted score, take the top `limit`. -/
def searchRank (sim : List ℚ → List ℚ → ℚ) (queryEmbedding : List ℚ)
    (chunks : List DbChunkRow) (limit : Nat) (threshold : ℚ) :
    List (DbChunkRow × ℚ) :=
  (sortScoreDesc (scoredChunksOf sim queryEmbedding chunks threshold)).take limit

/-- Model of `search`'s option defaulting: `limit = 5`, `threshold = 0.3`. -/
def searchWithDefaults (sim : List ℚ → List ℚ → ℚ)
    (queryEmbedding : List ℚ) (chunks : List DbChunkRow)
    (limit : Option Nat) (threshold : Option ℚ) : List (DbChunkRow × ℚ) :=
  searchRank sim queryEmbedding chunks (limit.getD DEFAULT_LIMIT)
    (threshold.getD DEFAULT_THRESHOLD)

/-! ## Lemmas about the normalizer (for claim C9) -/

theorem splitOnCh_ne_nil (sep : Char) (l : List Char) : splitOnCh sep l ≠ [] := by
  induction l with
  | nil => simp [splitOnCh]
  | cons c rest ih =>
    simp only [splitOnCh]
    split
    · simp
    · cases h : splitOnCh sep rest with
      | nil => simp
      | cons p ps => simp

theorem not_mem_of_mem_splitOnCh (sep : Char) (l : List Char) :
    ∀ p ∈ splitOnCh sep l, sep ∉ p := by
  induction l with
  | nil =>
    intro p hp
    have : p = [] := by simpa [splitOnCh] using hp
    subst this
    simp
  | cons c rest ih =>
    intro p hp
    simp only [splitOnCh] at hp
    by_cases hc : c = sep
    · rw [if_pos hc] at hp
      rcases List.mem_cons.mp hp with rfl | hp
      · simp
      · exact ih p hp
    · rw [if_neg hc] at hp
      rcases hsp : splitOnCh sep rest with _ | ⟨q, qs⟩
      · exact absurd hsp (splitOnCh_ne_nil sep rest)
      · rw [hsp] at hp
        rcases List.mem_cons.mp hp with rfl | hp
        · intro hm
          rcases List.mem_cons.mp hm with h1 | h1
          · exact hc h1.symm
          · exact ih q (by rw [hsp]; exact List.mem_cons_self q qs) h1
        · exact ih p (by rw [hsp]; exact List.mem_cons_of_mem q hp)

theorem splitOnCh_of_not_mem {sep : Char} {p : List Char} (h : sep ∉ p) :
    splitOnCh sep p = [p] := by
  induction p with
  | nil => simp [splitOnCh]
  | cons c rest ih =>
    have hc : c ≠ sep := fun e => h (by simp [e])
    have hr : sep ∉ rest := fun e => h (by simp [e])
    simp only [splitOnCh, if_neg (fun e => hc e), ih hr]

theorem splitOnCh_append_cons {sep : Char} {p : List Char} (t : List Char)
    (h : sep ∉ p) :
    splitOnCh sep (p ++ sep :: t) = p :: splitOnCh sep t := by
  induction p with
  | nil => simp [splitOnCh]
  | cons c rest ih =>
    have hc : c ≠ sep := fun e => h (by simp [e])
    have hr : sep ∉ rest := fun e => h (by simp [e])
    rw [List.cons_append]
    simp only [splitOnCh, if_neg (fun e => hc e)]
    rw [ih hr]

theorem splitOnCh_joinWith {sep : Char} {parts : List (List Char)}
    (hne : parts ≠ []) (hp : ∀ p ∈ parts, sep ∉ p) :
    splitOnCh sep (joinWith sep parts) = parts := by
  induction parts with
  | nil => exact absurd rfl hne
  | cons p rest ih =>
    cases rest with
    | nil =>
      simpa [joinWith] using splitOnCh_of_not_mem (hp p (by simp))
    | cons q qs =>
      have h1 : joinWith sep (p :: q :: qs) = p ++ sep :: joinWith sep (q :: qs) := rfl
      rw [h1, splitOnCh_append_cons _ (hp p (by simp)),
        ih (by simp) (fun r hr => hp r (by simp [hr]))]

theorem dropWhile_dropWhile (p : Char → Bool) (l : List Char) :
    (l.dropWhile p).dropWhile p = l.dropWhile p := by
  induction l with
  | nil => simp
  | cons c rest ih =>
    by_cases hc : p c = true
    · simp [List.dropWhile_cons, hc, ih]
    · simp [List.dropWhile_cons, hc]

theorem trimEndChars_trimEndChars (l : List Char) :
    trimEndChars (trimEndChars l) = trimEndChars l := by
  simp [trimEndChars, dropWhile_dropWhile]

theorem mem_of_mem_trimEndChars {c : Char} {l : List Char}
    (h : c ∈ trimEndChars l) : c ∈ l := by
  simp only [trimEndChars, List.mem_reverse] at h
  exact List.mem_reverse.mp ((List.dropWhile_sublist _).subset h)

theorem head?_dropWhile_not (p : Char → Bool) (l : List Char) :
    ∀ c, (l.dropWhile p).head? = some c → p c = false := by
  induction l with
  | nil => intro c h; simp at h
  | cons a rest ih =>
    intro c h
    by_cases ha : p a = true
    · rw [List.dropWhile_cons, if_pos ha] at h
      exact ih c h
    · rw [List.dropWhile_cons, if_neg ha] at h
      simp at h
      subst h
      cases hpa : p a with
      | false => rfl
      | true => exact absurd hpa ha

theorem getLast?_trimEndChars_not_ws (l : List Char) :
    ∀ c, (trimEndChars l).getLast? = some c → isJsWhitespace c = false := by
  intro c h
  rw [trimEndChars, List.getLast?_reverse] at h
  exact head?_dropWhile_not isJsWhitespace l.reverse c h

/-- Adjacent-pair safety: a character pair that `replaceCRLF` leaves alone. -/
def crlfFree (a b : Char) : Prop := ¬(a = '\r' ∧ b = '\n')

theorem replCRLFGo_some_eq {l : List Char} :
    ∀ p, List.Chain' crlfFree (p :: l) → replCRLFGo (some p) l = p :: l := by
  induction l with
  | nil => intro p _; rfl
  | cons c rest ih =>
    intro p hch
    rcases List.chain'_cons.mp hch with ⟨hpc, hrest⟩
    simp only [replCRLFGo, if_neg hpc]
    rw [ih c hrest]

theorem replaceCRLF_eq_self {l : List Char} (h : List.Chain' crlfFree l) :
    replaceCRLF l = l := by
  cases l with
  | nil => rfl
  | cons c rest =>
    show replCRLFGo (some c) rest = c :: rest
    exact replCRLFGo_some_eq c h

theorem chain'_crlfFree_of_no_nl {p : List Char} (h : '\n' ∉ p) :
    List.Chain' crlfFree p := by
  induction p with
  | nil => exact List.chain'_nil
  | cons c rest ih =>
    refine List.chain'_cons'.mpr ⟨?_, ih (fun e => h (by simp [e]))⟩
    intro y hy
    intro ⟨_, hy'⟩
    have : y ∈ rest := by
      cases rest with
      | nil => simp at hy
      | cons a t => simp at hy; simp [hy]
    exact h (by subst hy'; simp [this])

theorem chain'_crlfFree_joinNL {parts : List (List Char)}
    (hnl : ∀ p ∈ parts, '\n' ∉ p)
    (hlast : ∀ p ∈ parts, ∀ c, p.getLast? = some c → c ≠ '\r') :
    List.Chain' crlfFree (joinNL parts) := by
  induction parts with
  | nil => exact List.chain'_nil
  | cons p rest ih =>
    cases rest with
    | nil =>
      simpa [joinNL, joinWith] using chain'_crlfFree_of_no_nl (hnl p (by simp))
    | cons q qs =>
      have hj : joinNL (p :: q :: qs) = p ++ '\n' :: joinNL (q :: qs) := rfl
      rw [hj]
      refine List.chain'_append.mpr ⟨chain'_crlfFree_of_no_nl (hnl p (by simp)), ?_, ?_⟩
      · refine List.chain'_cons'.mpr ⟨?_, ?_⟩
        · intro y _ ⟨ha, _⟩
          exact absurd ha (by decide)
        · exact ih (fun r hr => hnl r (by simp [hr]))
            (fun r hr => hlast r (by simp [hr]))
      · intro x hx y _
        intro ⟨hx', _⟩
        subst hx'
        exact hlast p (by simp) '\r' (by simpa using hx) rfl

/-- The parts a normalization pass produces. -/
def normParts (t : String) : List (List Char) :=
  (splitNL (replaceCRLF t.toList)).map trimEndChars

theorem normalizeContent_eq_joinNL (t : String) :
    normalizeContent t = ⟨joinNL (normParts t)⟩ := rfl

theorem normParts_ne_nil (t : String) : normParts t ≠ [] := by
  simp only [normParts, splitNL, ne_eq, List.map_eq_nil_iff]
  exact splitOnCh_ne_nil '\n' _

theorem normParts_no_nl (t : String) : ∀ p ∈ normParts t, '\n' ∉ p := by
  intro p hp
  simp only [normParts, List.mem_map] at hp
  obtain ⟨q, hq, rfl⟩ := hp
  intro hmem
  exact not_mem_of_mem_splitOnCh '\n' _ q hq (mem_of_mem_trimEndChars hmem)

theorem normParts_trimmed (t : String) :
    ∀ p ∈ normParts t, trimEndChars p = p := by
  intro p hp
  simp only [normParts, List.mem_map] at hp
  obtain ⟨q, _, rfl⟩ := hp
  exact trimEndChars_trimEndChars q

theorem normParts_last_not_cr (t : String) :
    ∀ p ∈ normParts t, ∀ c, p.getLast? = some c → c ≠ '\r' := by
  intro p hp c hc
  simp only [normParts, List.mem_map] at hp
  obtain ⟨q, _, rfl⟩ := hp
  intro rfl_eq
  subst rfl_eq
  have := getLast?_trimEndChars_not_ws q _ hc
  simp [isJsWhitespace] at this

theorem normalizeContent_idem (t : String) :
    normalizeContent (normalizeContent t) = normalizeContent t := by
  rw [normalizeContent_eq_joinNL t]
  have htl : (String.mk (joinNL (normParts t))).toList = joinNL (normParts t) := rfl
  have hrepl : replaceCRLF (joinNL (normParts t)) = joinNL (normParts t) :=
    replaceCRLF_eq_self
      (chain'_crlfFree_joinNL (normParts_no_nl t) (normParts_last_not_cr t))
  have hsplit : splitNL (joinNL (normParts t)) = normParts t :=
    splitOnCh_joinWith (normParts_ne_nil t) (normParts_no_nl t)
  have hmap : (normParts t).map trimEndChars = normParts t :=
    List.map_congr_left (fun p hp => normParts_trimmed t p hp) |>.trans
      (List.map_id _)
  show String.mk (joinNL (((splitNL (replaceCRLF (String.mk (joinNL (normParts t))).toList))).map trimEndChars)) = String.mk (joinNL (normParts t))
  rw [htl, hrepl, hsplit, hmap]

/-- Claim C9 (corrected): hashing after an explicit normalization pass is
stable (`hash (normalize t) = hash (normalize (normalize t))`), and because
`computeHash` itself normalizes first, `hash (normalize t) = hash t`; the
original second conjunct — `hash (t + "\n") = hash t` whenever `t` ends in a
newline — is false on the code (see the counterexample): normalization strips
trailing spaces and tabs from each line but keeps every newline, so appending
one changes the digest. -/
theorem C9_normalize_hash_stability (t : String) :
    computeHash (normalizeContent t) =
      computeHash (normalizeContent (normalizeContent t)) ∧
    computeHash (normalizeContent t) = computeHash t := by
  refine ⟨?_, ?_⟩ <;> simp only [computeHash, normalizeContent_idem]

/-- Claim C9, counterexample: `t = "a\n"` ends in a newline, yet
`computeHash (t ++ "\n") ≠ computeHash t` — the two normalized strings
`"a\n\n"` and `"a\n"` have different SHA-256 digests. -/
theorem C9_counterexample :
    endsWithStr "a\n" "\n" = true ∧
    computeHash ("a\n" ++ "\n") ≠ computeHash "a\n" := by
  constructor
  · decide
  · decide

/-! ## Claim C1: the chunker on generic knowledge files -/

/-- Claim C1 (code bug): the spec promises that every indexable file — in
particular a markdown file under `knowledge/` whose name is not SKILL.md,
CLAUDE.md or AGENTS.md, such as `knowledge/api-patterns.md` — is chunked as
context without error; the code's `parseFile` instead throws
`Unsupported file type` for every file whose lowercased name does not end in
`skill.md`, `claude.md` or `agents.md`, so `syncProject` aborts on such a
file even though `discoverFiles`/`isIndexable` select it (and the repo's own
tests sync files named `knowledge/test-doc.md` and expect success). -/
theorem C1_parseFile_rejects_generic_knowledge_file :
    isIndexable "knowledge/api-patterns.md" = true ∧
    parseFile "knowledge/api-patterns.md" "# API Patterns\n\nUseful notes.\n" =
      .error "Unsupported file type: knowledge/api-patterns.md" :=
  ⟨by decide, rfl⟩

/-! ## Claim C2: classifier disjointness -/

theorem isIndexable_eq (p : String) :
    isIndexable p =
      (containsSub (slashNormalize p) "knowledge/" &&
        endsWithStr (slashNormalize p) ".md") := by
  unfold isIndexable
  by_cases h1 : containsSub (slashNormalize p) "knowledge/" = true <;>
    by_cases h2 : endsWithStr (slashNormalize p) ".md" = true <;>
    simp [h1, h2]

theorem isAuditable_iff (p : String) :
    isAuditable p = true ↔
      (basename (slashNormalize p) = "CLAUDE.md" ∨
       basename (slashNormalize p) = "AGENTS.md" ∨
       containsSub (slashNormalize p) ".claude/" = true ∨
       containsSub (slashNormalize p) ".codex/" = true ∨
       containsSub (slashNormalize p) ".opencode/" = true) := by
  unfold isAuditable
  dsimp only
  split_ifs with h1 h2 h3 h4
  all_goals simp_all
  all_goals tauto

/-- Claim C2 (corrected): the classifier predicates are not disjoint.  Their
conjunction holds exactly on the markdown paths under a `knowledge/` segment
that are also auditable — basename `CLAUDE.md`/`AGENTS.md` or a special
directory segment — e.g. `knowledge/CLAUDE.md` satisfies both. -/
theorem C2_classifier_overlap (p : String) :
    (isIndexable p && isAuditable p) = true ↔
      (containsSub (slashNormalize p) "knowledge/" = true ∧
       endsWithStr (slashNormalize p) ".md" = true ∧
       (basename (slashNormalize p) = "CLAUDE.md" ∨
        basename (slashNormalize p) = "AGENTS.md" ∨
        containsSub (slashNormalize p) ".claude/" = true ∨
        containsSub (slashNormalize p) ".codex/" = true ∨
        containsSub (slashNormalize p) ".opencode/" = true)) := by
  rw [Bool.and_eq_true, isIndexable_eq, Bool.and_eq_true, isAuditable_iff]
  tauto

/-- Claim C2, counterexample: `knowledge/CLAUDE.md` is classified both
indexable and auditable, refuting `isIndexable(p) ∧ isAuditable(p) = false`
for every path. -/
theorem C2_counterexample :
    isIndexable "knowledge/CLAUDE.md" = true ∧
    isAuditable "knowledge/CLAUDE.md" = true := by
  exact ⟨by decide, by decide⟩

/-! ## Claim C6: discovery and the skip list -/

theorem map_fst_filter (ψ : String → Bool) (fs : FS) :
    ((fs.filter (fun e => ψ e.1)).map Prod.fst) = (fs.map Prod.fst).filter ψ := by
  induction fs with
  | nil => rfl
  | cons e rest ih =>
    by_cases h : ψ e.1 = true <;>
      simp [List.filter_cons, h, ih]

theorem isIndexable_of_knowledge_md {p : String}
    (h1 : startsWithStr p "knowledge/" = true)
    (h2 : endsWithStr p ".md" = true) : isIndexable p = true := by
  rw [isIndexable_eq, Bool.and_eq_true]
  have htl : (slashNormalize p).toList =
      p.toList.map (fun c => if c = '\\' then '/' else c) := rfl
  constructor
  · have hpre : "knowledge/".toList <+: p.toList := by
      simpa [startsWithStr] using h1
    have hpre2 := hpre.map (fun c => if c = '\\' then '/' else c)
    have hlit : "knowledge/".toList.map (fun c => if c = '\\' then '/' else c) =
        "knowledge/".toList := by decide
    rw [hlit] at hpre2
    simp only [containsSub, decide_eq_true_eq, htl]
    exact hpre2.isInfix
  · have hsuf : ".md".toList <:+ p.toList := by
      simpa [endsWithStr] using h2
    have hsuf2 := hsuf.map (fun c => if c = '\\' then '/' else c)
    have hlit : ".md".toList.map (fun c => if c = '\\' then '/' else c) =
        ".md".toList := by decide
    rw [hlit] at hsuf2
    simp only [endsWithStr, decide_eq_true_eq, htl]
    exact hsuf2

/-- Claim C6 (corrected): discovery returns exactly the `.md` files under
`root/knowledge/` — there is no skip list anywhere in the walk, so files
under `node_modules`, `.git`, `dist`, `build` or `.memory-forge` inside the
knowledge tree are returned too (top-level directories of those names are
excluded only because the walk starts at `knowledge/`). -/
theorem C6_discoverFiles_characterization (fs : FS) :
    discoverFiles fs =
      (fs.map Prod.fst).filter
        (fun p => startsWithStr p "knowledge/" && endsWithStr p ".md") := by
  unfold discoverFiles findKnowledgeFiles
  rw [map_fst_filter (fun p => startsWithStr p "knowledge/" && endsWithStr p ".md") fs]
  apply List.filter_eq_self.mpr
  intro p hp
  rw [List.mem_filter, Bool.and_eq_true] at hp
  exact isIndexable_of_knowledge_md hp.2.1 hp.2.2

/-- Claim C6, counterexample: a markdown file under a `node_modules`
directory inside `knowledge/` is returned by `discoverFiles`, refuting the
claim that the walk skips `node_modules` anywhere encountered. -/
theorem C6_counterexample :
    discoverFiles [("knowledge/node_modules/pkg/readme.md", "# pkg")] =
      ["knowledge/node_modules/pkg/readme.md"] ∧
    containsSub "knowledge/node_modules/pkg/readme.md" "node_modules/" = true := by
  exact ⟨by decide, by decide⟩

/-! ## Claim C10: retention with no limits configured -/

/-- Claim C10 (confirmed): with neither `maxFiles` nor `maxAgeDays` set —
whatever `protectImportance` is — `getStaleFiles` returns the empty list and
`forgetStaleFiles` removes nothing, returning the store unchanged (both are
total functions here, so no error is raised). -/
theorem C10_retention_noop (db : Db) (pi : Option Int) (cutoff : String) :
    getStaleFiles db
        { maxFiles := none, maxAgeDays := none, protectImportance := pi }
        cutoff = [] ∧
    forgetStaleFiles db
        { maxFiles := none, maxAgeDays := none, protectImportance := pi }
        cutoff = ([], db) := by
  exact ⟨rfl, rfl⟩

/-! ## Claim C7: model consistency check -/

/-- Claim C7 (confirmed): when the stored embedding-model id differs from the
current `modelId()`, `checkModelConsistency` clears the chunk store (all file
records and chunks deleted) and wipes the manifest to empty before any
reindexing; when the stored id is absent (no metadata, or the falsy empty
string) or equal to the current id, nothing is cleared and the state is
untouched. -/
theorem C7_model_consistency (st : SyncState) (cur : String) :
    (st.db.embeddingModel = none → checkModelConsistency st cur = (false, st)) ∧
    (∀ m, st.db.embeddingModel = some m → (m = "" ∨ m = cur) →
      checkModelConsistency st cur = (false, st)) ∧
    (∀ m, st.db.embeddingModel = some m → m ≠ "" → m ≠ cur →
      checkModelConsistency st cur =
        (true,
          { db := { files := [], chunks := [],
                    embeddingModel := st.db.embeddingModel },
            manifest := { files := [], lastIndexed := "" } })) := by
  refine ⟨?_, ?_, ?_⟩
  · intro h
    unfold checkModelConsistency
    rw [h]
  · intro m h hm
    unfold checkModelConsistency
    rw [h]
    rcases hm with rfl | rfl <;> simp
  · intro m h h1 h2
    have hcd : clearDatabase st.db =
        { files := [], chunks := [], embeddingModel := st.db.embeddingModel } := by
      unfold clearDatabase
      rfl
    unfold checkModelConsistency
    rw [h]
    rw [h] at hcd
    simp only [if_neg h1, if_neg h2, hcd]

/-- Claim C7, witness: the three cases of `C7_model_consistency` applied at
concrete states — fresh metadata, matching id, and a mismatching id that
clears a populated store. -/
theorem C7_model_consistency_witness :
    checkModelConsistency initState "model-a" = (false, initState) ∧
    checkModelConsistency
        { db := { files := [], chunks := [], embeddingModel := some "model-a" },
          manifest := { files := [], lastIndexed := "T0" } } "model-a" =
      (false,
        { db := { files := [], chunks := [], embeddingModel := some "model-a" },
          manifest := { files := [], lastIndexed := "T0" } }) ∧
    checkModelConsistency
        { db := { files := [{ path := "knowledge/claude.md", hash := "h",
                              indexedAt := "T0", lastAccessed := "T0",
                              accessCount := 1, importance := 5,
                              chunkCount := 0 }],
                  chunks := [], embeddingModel := some "model-a" },
          manifest := { files := [("knowledge/claude.md", "h")],
                        lastIndexed := "T0" } } "model-b" =
      (true,
        { db := { files := [], chunks := [], embeddingModel := some "model-a" },
          manifest := { files := [], lastIndexed := "" } }) := by
  refine ⟨(C7_model_consistency initState "model-a").1 rfl,
    (C7_model_consistency _ "model-a").2.1 "model-a" rfl (Or.inr rfl),
    (C7_model_consistency _ "model-b").2.2 "model-a" rfl (by decide) (by decide)⟩

/-! ## Claim C4: retention never deletes protected files -/

theorem mem_insertLe {α : Type} (le : α → α → Bool) (x a : α) (l : List α) :
    a ∈ insertLe le x l ↔ a = x ∨ a ∈ l := by
  induction l with
  | nil => simp [insertLe]
  | cons y ys ih =>
    simp only [insertLe]
    split
    · rw [List.mem_cons, ih, List.mem_cons]
      tauto
    · rw [List.mem_cons, List.mem_cons]

theorem mem_sortByLe {α : Type} (le : α → α → Bool) (l : List α) (a : α) :
    a ∈ sortByLe le l ↔ a ∈ l := by
  suffices h : ∀ acc, a ∈ l.foldl (fun acc x => insertLe le x acc) acc ↔
      a ∈ acc ∨ a ∈ l by
    simpa using h []
  induction l with
  | nil => intro acc; simp
  | cons x xs ih =>
    intro acc
    simp only [List.foldl_cons]
    rw [ih]
    simp [mem_insertLe]
    tauto

theorem mem_dedupFold (lru : List String) (base : List String) (q : String)
    (h : q ∈ lru.foldl
      (fun acc p => if acc.contains p then acc else acc ++ [p]) base) :
    q ∈ base ∨ q ∈ lru := by
  induction lru generalizing base with
  | nil => simp at h; exact Or.inl h
  | cons p rest ih =>
    simp only [List.foldl_cons] at h
    rcases ih _ h with hb | hr
    · split at hb
      · exact Or.inl hb
      · rcases List.mem_append.mp hb with hb | hb
        · exact Or.inl hb
        · simp at hb
          exact Or.inr (by simp [hb])
    · exact Or.inr (by simp [hr])

theorem mem_ageStaleList {db : Db} {thr : Int} {cutoff : String} {q : String}
    (hq : q ∈ ageStaleList db thr cutoff) :
    ∃ f ∈ db.files, f.path = q ∧ f.importance < thr := by
  unfold ageStaleList at hq
  rw [List.mem_map] at hq
  obtain ⟨f, hf, rfl⟩ := hq
  rw [mem_sortByLe, List.mem_filter] at hf
  refine ⟨f, hf.1, rfl, ?_⟩
  have h2 := hf.2
  rw [Bool.and_eq_true] at h2
  exact of_decide_eq_true (by simpa using h2.2)

theorem mem_deletableSorted {db : Db} {thr : Int} {f : FileRecord}
    (hf : f ∈ deletableSorted db thr) :
    f ∈ db.files ∧ f.importance < thr := by
  unfold deletableSorted at hf
  rw [mem_sortByLe, List.mem_filter] at hf
  exact ⟨hf.1, of_decide_eq_true (by simpa using hf.2)⟩

theorem mem_ite_dedupFold {base lru : List String} {cond : Prop}
    [Decidable cond] {q : String}
    (h : q ∈ (if cond then
      lru.foldl (fun acc p => if acc.contains p then acc else acc ++ [p]) base
      else base)) : q ∈ base ∨ q ∈ lru := by
  split at h
  · exact mem_dedupFold _ _ _ h
  · exact Or.inl h

theorem mem_lruTake {db : Db} {thr : Int} {k : Nat} {q : String}
    (hq : q ∈ ((deletableSorted db thr).take k).map (fun f => f.path)) :
    ∃ f ∈ db.files, f.path = q ∧ f.importance < thr := by
  rw [List.mem_map] at hq
  obtain ⟨f, hf, rfl⟩ := hq
  obtain ⟨hf1, hf2⟩ := mem_deletableSorted (List.take_subset _ _ hf)
  exact ⟨f, hf1, rfl, hf2⟩

theorem mem_getStaleFiles {db : Db} {config : RetentionConfig}
    {cutoff : String} {p : String} (h : p ∈ getStaleFiles db config cutoff) :
    ∃ f ∈ db.files, f.path = p ∧
      f.importance < config.protectImportance.getD 8 := by
  obtain ⟨mf, ma, pi⟩ := config
  unfold getStaleFiles at h
  dsimp only at h
  rcases ma with _ | d <;> rcases mf with _ | n <;> dsimp only at h
  · exact absurd h (by simp)
  · rcases mem_ite_dedupFold h with hb | hl
    · exact absurd hb (by simp)
    · exact mem_lruTake hl
  · exact mem_ageStaleList h
  · rcases mem_ite_dedupFold h with hb | hl
    · exact mem_ageStaleList hb
    · exact mem_lruTake hl

theorem mem_removeFold {f : FileRecord} :
    ∀ (ps : List String) (db : Db), f ∈ db.files → f.path ∉ ps →
      f ∈ (ps.foldl (fun db p => removeFile db p) db).files := by
  intro ps
  induction ps with
  | nil => intro db hf _; simpa using hf
  | cons p rest ih =>
    intro db hf hnp
    have hne : f.path ≠ p := fun e => hnp (by simp [e])
    simp only [List.foldl_cons]
    apply ih
    · simp only [removeFile]
      exact List.mem_filter.mpr ⟨hf, by simpa using hne⟩
    · exact fun e => hnp (by simp [e])

/-- Claim C4 (corrected): `forgetStaleFiles` never deletes a file whose
importance is at least the configured protection threshold
(`protectImportance`, defaulting to 8) — in particular, with the default, no
file of importance ≥ 8 is ever deleted.  The original claim — protection of
importance ≥ 8 under every config — fails when `protectImportance` is set
above 8 (see the counterexample). -/
theorem C4_protected_files_preserved (db : Db) (config : RetentionConfig)
    (cutoff : String) (f : FileRecord)
    (hnodup : (db.files.map FileRecord.path).Nodup)
    (hf : f ∈ db.files)
    (himp : config.protectImportance.getD 8 ≤ f.importance) :
    f ∈ (forgetStaleFiles db config cutoff).2.files := by
  unfold forgetStaleFiles
  apply mem_removeFold _ _ hf
  intro hp
  obtain ⟨g, hg, hgp, hlt⟩ := mem_getStaleFiles hp
  have : g = f := List.inj_on_of_nodup_map hnodup hg hf hgp
  subst this
  exact absurd hlt (not_lt.mpr himp)

/-- Claim C4, witness: with `maxFiles = 0` and the default protection
threshold, a file of importance 9 survives `forgetStaleFiles`. -/
theorem C4_witness :
    ({ path := "knowledge/doc.md", hash := "h", indexedAt := "T0",
       lastAccessed := "", accessCount := 0, importance := 9,
       chunkCount := 1 } : FileRecord) ∈
      (forgetStaleFiles
        { files := [{ path := "knowledge/doc.md", hash := "h",
                      indexedAt := "T0", lastAccessed := "",
                      accessCount := 0, importance := 9, chunkCount := 1 }],
          chunks := [], embeddingModel := none }
        { maxFiles := some 0 } "").2.files := by
  exact C4_protected_files_preserved _ _ "" _ (by decide) (by decide) (by decide)

/-! ## Claim C8: search scoring, filtering and ranking -/

theorem mem_scoredChunksOf (sim : List ℚ → List ℚ → ℚ) (q : List ℚ)
    (chunks : List DbChunkRow) (threshold : ℚ) :
    ∀ pr ∈ scoredChunksOf sim q chunks threshold,
      pr.2 = adjustedScore pr.1.chunk.priority (sim q pr.1.embedding) ∧
      threshold ≤ pr.2 := by
  suffices h : ∀ acc,
      (∀ pr ∈ acc,
        pr.2 = adjustedScore pr.1.chunk.priority (sim q pr.1.embedding) ∧
        threshold ≤ pr.2) →
      ∀ pr ∈ chunks.foldl
        (fun acc c =>
          let similarity := sim q c.embedding
          let s := adjustedScore c.chunk.priority similarity
          if threshold ≤ s then acc ++ [(c, s)] else acc) acc,
        pr.2 = adjustedScore pr.1.chunk.priority (sim q pr.1.embedding) ∧
        threshold ≤ pr.2 by
    exact h [] (by simp)
  induction chunks with
  | nil => intro acc hacc pr hpr; exact hacc pr hpr
  | cons c rest ih =>
    intro acc hacc pr hpr
    rw [List.foldl_cons] at hpr
    refine ih _ ?_ pr hpr
    intro pr' hpr'
    by_cases hcond : threshold ≤ adjustedScore c.chunk.priority (sim q c.embedding)
    · simp only [if_pos hcond] at hpr'
      rcases List.mem_append.mp hpr' with h1 | h1
      · exact hacc pr' h1
      · have he : pr' = (c, adjustedScore c.chunk.priority (sim q c.embedding)) := by
          simpa using h1
        subst he
        exact ⟨rfl, hcond⟩
    · simp only [if_neg hcond] at hpr'
      exact hacc pr' hpr'

theorem scoredChunksOf_complete (sim : List ℚ → List ℚ → ℚ) (q : List ℚ)
    (chunks : List DbChunkRow) (threshold : ℚ) (c : DbChunkRow)
    (hc : c ∈ chunks)
    (hs : threshold ≤ adjustedScore c.chunk.priority (sim q c.embedding)) :
    (c, adjustedScore c.chunk.priority (sim q c.embedding)) ∈
      scoredChunksOf sim q chunks threshold := by
  suffices h : ∀ acc,
      ((c, adjustedScore c.chunk.priority (sim q c.embedding)) ∈ acc ∨
        c ∈ chunks) →
      (c, adjustedScore c.chunk.priority (sim q c.embedding)) ∈
        chunks.foldl
          (fun acc d =>
            let similarity := sim q d.embedding
            let s := adjustedScore d.chunk.priority similarity
            if threshold ≤ s then acc ++ [(d, s)] else acc) acc by
    exact h [] (Or.inr hc)
  clear hc
  induction chunks with
  | nil =>
    intro acc hacc
    rcases hacc with h1 | h1
    · simpa using h1
    · simp at h1
  | cons d rest ih =>
    intro acc hacc
    simp only [List.foldl_cons]
    apply ih
    rcases hacc with h1 | h1
    · left
      dsimp only
      split
      · exact List.mem_append_left _ h1
      · exact h1
    · rcases List.mem_cons.mp h1 with rfl | h1
      · left
        dsimp only
        rw [if_pos hs]
        exact List.mem_append_right _ (by simp)
      · exact Or.inr h1

theorem pairwise_insertLe_score (x : DbChunkRow × ℚ)
    (l : List (DbChunkRow × ℚ))
    (h : List.Pairwise (fun a b : DbChunkRow × ℚ => b.2 ≤ a.2) l) :
    List.Pairwise (fun a b : DbChunkRow × ℚ => b.2 ≤ a.2)
      (insertLe (fun a b => decide (b.2 ≤ a.2)) x l) := by
  induction l with
  | nil => simp [insertLe]
  | cons y ys ih =>
    rw [List.pairwise_cons] at h
    simp only [insertLe]
    split
    · rw [List.pairwise_cons]
      constructor
      · intro z hz
        rcases (mem_insertLe _ x z ys).mp hz with rfl | hz
        · exact of_decide_eq_true (by assumption)
        · exact h.1 z hz
      · exact ih h.2
    · rw [List.pairwise_cons]
      constructor
      · intro z hz
        have hyx : y.2 ≤ x.2 := by
          have := of_decide_eq_false (by simpa using (by assumption : ¬ _))
          exact le_of_not_le (by simpa using this)
        rcases List.mem_cons.mp hz with rfl | hz
        · exact hyx
        · exact le_trans (h.1 z hz) hyx
      · exact List.pairwise_cons.mpr h

theorem pairwise_sortScoreDesc (l : List (DbChunkRow × ℚ)) :
    List.Pairwise (fun a b : DbChunkRow × ℚ => b.2 ≤ a.2) (sortScoreDesc l) := by
  suffices h : ∀ acc, List.Pairwise (fun a b : DbChunkRow × ℚ => b.2 ≤ a.2) acc →
      List.Pairwise (fun a b : DbChunkRow × ℚ => b.2 ≤ a.2)
        (l.foldl (fun acc x => insertLe (fun a b => decide (b.2 ≤ a.2)) x acc) acc) by
    exact h [] (by simp)
  induction l with
  | nil => intro acc hacc; exact hacc
  | cons x xs ih =>
    intro acc hacc
    simp only [List.foldl_cons]
    exact ih _ (pairwise_insertLe_score x acc hacc)

/-- Claim C8 (confirmed): every reported score is
`sim × (1 + 0.2 × priority / 10)` and at least the threshold; at most
`limit` results are returned, sorted descending by adjusted score; every
surviving chunk is either returned (with exactly that score) or crowded out
by `limit` results of no smaller score; for a fixed priority `≥ 0` the score
is monotone in `sim`; for priorities up to 10 and nonnegative `sim` the
boost is at most +20%; and the defaults are `limit = 5`,
`threshold = 0.3`. -/
theorem C8_search_ranking (sim : List ℚ → List ℚ → ℚ) (q : List ℚ)
    (chunks : List DbChunkRow) (limit : Nat) (threshold : ℚ) :
    (∀ pr ∈ searchRank sim q chunks limit threshold,
       pr.2 = adjustedScore pr.1.chunk.priority (sim q pr.1.embedding) ∧
       threshold ≤ pr.2) ∧
    (searchRank sim q chunks limit threshold).length ≤ limit ∧
    List.Pairwise (fun a b : DbChunkRow × ℚ => b.2 ≤ a.2)
      (searchRank sim q chunks limit threshold) ∧
    (∀ c ∈ chunks,
       threshold ≤ adjustedScore c.chunk.priority (sim q c.embedding) →
       (c, adjustedScore c.chunk.priority (sim q c.embedding)) ∈
           searchRank sim q chunks limit threshold ∨
         ((searchRank sim q chunks limit threshold).length = limit ∧
          ∀ pr ∈ searchRank sim q chunks limit threshold,
            adjustedScore c.chunk.priority (sim q c.embedding) ≤ pr.2)) ∧
    (∀ (p : Int) (s₁ s₂ : ℚ), 0 ≤ p → s₁ ≤ s₂ →
       adjustedScore p s₁ ≤ adjustedScore p s₂) ∧
    (∀ (p : Int) (s : ℚ), p ≤ 10 → 0 ≤ s →
       adjustedScore p s ≤ s * (6 / 5)) ∧
    searchWithDefaults sim q chunks none none =
      searchRank sim q chunks 5 (3 / 10) := by
  have hmemsort : ∀ pr, pr ∈ sortScoreDesc (scoredChunksOf sim q chunks threshold) ↔
      pr ∈ scoredChunksOf sim q chunks threshold := by
    intro pr
    exact mem_sortByLe _ _ pr
  refine ⟨?_, ?_, ?_, ?_, ?_, ?_, rfl⟩
  · intro pr hpr
    have h1 : pr ∈ sortScoreDesc (scoredChunksOf sim q chunks threshold) :=
      List.take_subset _ _ hpr
    exact mem_scoredChunksOf sim q chunks threshold pr ((hmemsort pr).mp h1)
  · exact List.length_take_le _ _
  · exact (pairwise_sortScoreDesc _).sublist (List.take_sublist _ _)
  · intro c hc hs
    have hmem : (c, adjustedScore c.chunk.priority (sim q c.embedding)) ∈
        sortScoreDesc (scoredChunksOf sim q chunks threshold) :=
      (hmemsort _).mpr (scoredChunksOf_complete sim q chunks threshold c hc hs)
    by_cases htake : (c, adjustedScore c.chunk.priority (sim q c.embedding)) ∈
        searchRank sim q chunks limit threshold
    · exact Or.inl htake
    · right
      set sorted := sortScoreDesc (scoredChunksOf sim q chunks threshold) with hsorted
      have hsplit := List.take_append_drop limit sorted
      have hdrop : (c, adjustedScore c.chunk.priority (sim q c.embedding)) ∈
          sorted.drop limit := by
        rcases List.mem_append.mp (by rw [hsplit]; exact hmem) with h1 | h1
        · exact absurd h1 htake
        · exact h1
      have hpw := pairwise_sortScoreDesc (scoredChunksOf sim q chunks threshold)
      rw [← hsorted, ← hsplit] at hpw
      have hcross := (List.pairwise_append.mp hpw).2.2
      have hlen : limit ≤ sorted.length := by
        by_contra hlt
        push_neg at hlt
        have : sorted.drop limit = [] := by
          rw [List.drop_eq_nil_iff]
          omega
        rw [this] at hdrop
        simp at hdrop
      constructor
      · show (sorted.take limit).length = limit
        rw [List.length_take]
        omega
      · intro pr hpr
        have := hcross pr hpr _ hdrop
        simpa using this
  · intro p s₁ s₂ hp hs
    unfold adjustedScore
    have hp' : (0 : ℚ) ≤ (p : ℚ) := by exact_mod_cast hp
    have hk : (0 : ℚ) ≤ 1 + ((p : ℚ) / 10) * (2 / 10) := by nlinarith
    exact mul_le_mul_of_nonneg_right hs hk
  · intro p s hp hs
    unfold adjustedScore
    have hp' : ((p : ℚ)) ≤ 10 := by exact_mod_cast hp
    have hk : 1 + ((p : ℚ) / 10) * (2 / 10) ≤ 6 / 5 := by nlinarith
    exact mul_le_mul_of_nonneg_left hk hs

/-- Claim C8, witness: the monotonicity and bounded-boost clauses of
`C8_search_ranking` at concrete priorities and similarities. -/
theorem C8_search_ranking_witness :
    adjustedScore 5 (1 / 2 : ℚ) ≤ adjustedScore 5 (2 / 3 : ℚ) ∧
    adjustedScore 10 (1 / 2 : ℚ) ≤ (1 / 2 : ℚ) * (6 / 5) := by
  obtain ⟨-, -, -, -, hE, hF, -⟩ :=
    C8_search_ranking (fun _ _ => 0) [] [] 5 (3 / 10)
  exact ⟨hE 5 (1 / 2) (2 / 3) (by norm_num) (by norm_num),
    hF 10 (1 / 2) (by norm_num) (by norm_num)⟩

/-! ## Lemmas about the synchronizer (for claims C3 and C5) -/

/-- The sync state reached by `syncProject` (the input state if it threw). -/
def syncStateAfter (embed : String → List ℚ) (model : String) (fs : FS)
    (st : SyncState) (now : String) : SyncState :=
  match syncProject embed model fs st now with
  | .ok r => r.2
  | .error _ => st

theorem mLookup_cons (e : String × String) (m : List (String × String))
    (p : String) :
    mLookup (e :: m) p = if e.1 = p then some e.2 else mLookup m p := by
  by_cases h : e.1 = p <;> simp [mLookup, List.find?_cons, h]

theorem mapSet_of_lookup_none {m : List (String × String)} {k v : String}
    (h : mLookup m k = none) : mapSet m k v = m ++ [(k, v)] := by
  have hany : m.any (fun e => e.1 = k) = false := by
    rw [List.any_eq_false]
    intro x hx
    unfold mLookup at h
    rw [Option.map_eq_none'] at h
    have := List.find?_eq_none.mp h x hx
    simpa using this
  unfold mapSet
  simp [hany]

theorem mLookup_append_singleton {m : List (String × String)} {k v p : String}
    (hne : p ≠ k) : mLookup (m ++ [(k, v)]) p = mLookup m p := by
  induction m with
  | nil =>
    rw [List.nil_append, mLookup_cons, if_neg (fun e => hne e.symm)]
  | cons e rest ih =>
    rw [List.cons_append, mLookup_cons, mLookup_cons, ih]

theorem mLookup_map_graph (g : String → String) :
    ∀ (files : List String) (p : String), p ∈ files →
      mLookup (files.map (fun q => (q, g q))) p = some (g p) := by
  intro files
  induction files with
  | nil => intro p hp; simp at hp
  | cons f rest ih =>
    intro p hp
    rw [List.map_cons, mLookup_cons]
    by_cases hfp : f = p
    · subst hfp
      simp
    · rw [if_neg hfp]
      rcases List.mem_cons.mp hp with rfl | hp
      · exact absurd rfl hfp
      · exact ih p hp

theorem length_foldl_sha256Block :
    ∀ (blocks : List (List Nat)) (hs : List Nat), hs.length = 8 →
      (blocks.foldl sha256Block hs).length = 8 := by
  intro blocks
  induction blocks with
  | nil => intro hs h; simpa using h
  | cons b rest ih =>
    intro hs _
    rw [List.foldl_cons]
    exact ih _ rfl

theorem sha256Hex_ne_empty (msg : List Nat) : sha256Hex msg ≠ "" := by
  unfold sha256Hex
  intro h
  have hd := congrArg String.data h
  rcases hw : (chunksOf 64 (sha256Pad msg)).foldl sha256Block sha256H0 with _ | ⟨w, rest⟩
  · have := length_foldl_sha256Block (chunksOf 64 (sha256Pad msg)) sha256H0 rfl
    rw [hw] at this
    simp at this
  · rw [hw] at hd
    simp [hex8] at hd

theorem computeHash_ne_empty (c : String) : computeHash c ≠ "" :=
  sha256Hex_ne_empty _

theorem discoverFiles_sublist (fs : FS) :
    List.Sublist (discoverFiles fs) (fs.map Prod.fst) := by
  unfold discoverFiles findKnowledgeFiles
  exact (List.filter_sublist _).trans ((List.filter_sublist fs).map Prod.fst)

theorem discoverFiles_nodup {fs : FS} (hnodup : (fs.map Prod.fst).Nodup) :
    (discoverFiles fs).Nodup :=
  hnodup.sublist (discoverFiles_sublist fs)

theorem processIndex_manifest (embed : String → List ℚ) (fs : FS)
    (now : String) :
    ∀ (ps : List String) (st : SyncState) (res res' : SyncResult)
      (st' : SyncState),
      processIndex embed fs now ps st res = .ok (res', st') →
      (∀ p ∈ ps, mLookup st.manifest.files p = none) → ps.Nodup →
      st'.manifest.files =
        st.manifest.files ++
          ps.map (fun p => (p, computeHash (fsLookup fs p))) ∧
      st'.manifest.lastIndexed = st.manifest.lastIndexed := by
  intro ps
  induction ps with
  | nil =>
    intro st res res' st' h _ _
    simp only [processIndex, Except.ok.injEq, Prod.mk.injEq] at h
    rw [← h.2]
    simp
  | cons file rest ih =>
    intro st res res' st' h hp hnd
    simp only [processIndex] at h
    rcases hidx : indexFile embed fs st.db file now with e | nd
    · simp only [hidx] at h
      exact Except.noConfusion h
    · obtain ⟨n, db'⟩ := nd
      simp only [hidx] at h
      have hpf : mLookup st.manifest.files file = none := hp file (by simp)
      have hset : mapSet st.manifest.files file
          (computeHash (fsLookup fs file)) =
          st.manifest.files ++ [(file, computeHash (fsLookup fs file))] :=
        mapSet_of_lookup_none hpf
      have hp' : ∀ p ∈ rest,
          mLookup (mapSet st.manifest.files file
            (computeHash (fsLookup fs file))) p = none := by
        intro p hpmem
        rw [hset, mLookup_append_singleton]
        · exact hp p (by simp [hpmem])
        · intro he
          subst he
          exact (List.nodup_cons.mp hnd).1 hpmem
      obtain ⟨ih1, ih2⟩ := ih _ _ _ _ h hp' (List.nodup_cons.mp hnd).2
      constructor
      · rw [ih1]
        dsimp only
        rw [hset, List.append_assoc]
        simp
      · rw [ih2]

theorem processIndex_preserves (embed : String → List ℚ) (fs : FS)
    (now : String) :
    ∀ (ps : List String) (st : SyncState) (res res' : SyncResult)
      (st' : SyncState),
      processIndex embed fs now ps st res = .ok (res', st') →
      ∀ rec ∈ st.db.files, rec.path ∉ ps → rec ∈ st'.db.files := by
  intro ps
  induction ps with
  | nil =>
    intro st res res' st' h rec hrec _
    simp only [processIndex, Except.ok.injEq, Prod.mk.injEq] at h
    rw [← h.2]
    exact hrec
  | cons file rest ih =>
    intro st res res' st' h rec hrec hnp
    have hne : rec.path ≠ file := fun e => hnp (by simp [e])
    simp only [processIndex] at h
    rcases hidx : indexFile embed fs st.db file now with e | nd
    · simp only [hidx] at h
      exact Except.noConfusion h
    · obtain ⟨n, db'⟩ := nd
      simp only [hidx] at h
      have hrec' : rec ∈ db'.files := by
        unfold indexFile at hidx
        rcases hpf : parseFile file (fsLookup fs file) with e | pr
        · simp only [hpf] at hidx
          exact Except.noConfusion hidx
        · simp only [hpf] at hidx
          by_cases hch : pr.chunks = []
          · rw [if_pos hch] at hidx
            simp only [Except.ok.injEq, Prod.mk.injEq] at hidx
            rw [← hidx.2]
            exact hrec
          · rw [if_neg hch] at hidx
            simp only [Except.ok.injEq, Prod.mk.injEq] at hidx
            rw [← hidx.2]
            unfold upsertFileChunks
            exact List.mem_append_left _
              (List.mem_filter.mpr ⟨hrec, by simpa using hne⟩)
      exact ih _ _ _ _ h rec hrec' (fun e => hnp (by simp [e]))

theorem processIndex_dbpaths (embed : String → List ℚ) (fs : FS)
    (now : String) :
    ∀ (ps : List String) (st : SyncState) (res res' : SyncResult)
      (st' : SyncState),
      processIndex embed fs now ps st res = .ok (res', st') →
      ∀ rec ∈ st'.db.files, rec ∈ st.db.files ∨ rec.path ∈ ps := by
  intro ps
  induction ps with
  | nil =>
    intro st res res' st' h rec hrec
    simp only [processIndex, Except.ok.injEq, Prod.mk.injEq] at h
    rw [← h.2] at hrec
    exact Or.inl hrec
  | cons file rest ih =>
    intro st res res' st' h rec hrec
    simp only [processIndex] at h
    rcases hidx : indexFile embed fs st.db file now with e | nd
    · simp only [hidx] at h
      exact Except.noConfusion h
    · obtain ⟨n, db'⟩ := nd
      simp only [hidx] at h
      rcases ih _ _ _ _ h rec hrec with h1 | h1
      · have : rec ∈ st.db.files ∨ rec.path = file := by
          unfold indexFile at hidx
          rcases hpf : parseFile file (fsLookup fs file) with e | pr
          · simp only [hpf] at hidx
            exact Except.noConfusion hidx
          · simp only [hpf] at hidx
            by_cases hch : pr.chunks = []
            · rw [if_pos hch] at hidx
              simp only [Except.ok.injEq, Prod.mk.injEq] at hidx
              rw [← hidx.2] at h1
              exact Or.inl h1
            · rw [if_neg hch] at hidx
              simp only [Except.ok.injEq, Prod.mk.injEq] at hidx
              rw [← hidx.2] at h1
              unfold upsertFileChunks at h1
              rcases List.mem_append.mp h1 with h2 | h2
              · exact Or.inl (List.mem_filter.mp h2).1
              · exact Or.inr (by rw [List.mem_singleton.mp h2])
        rcases this with h2 | h2
        · exact Or.inl h2
        · exact Or.inr (by simp [h2])
      · exact Or.inr (by simp [h1])

theorem processIndex_record (embed : String → List ℚ) (fs : FS)
    (now : String) :
    ∀ (ps : List String) (st : SyncState) (res res' : SyncResult)
      (st' : SyncState),
      processIndex embed fs now ps st res = .ok (res', st') → ps.Nodup →
      ∀ p ∈ ps, ∀ pr, parseFile p (fsLookup fs p) = .ok pr →
        pr.chunks ≠ [] →
        ∃ rec ∈ st'.db.files, rec.path = p ∧
          rec.hash = calculateFileHash (fsLookup fs p) := by
  intro ps
  induction ps with
  | nil =>
    intro st res res' st' _ _ p hp
    simp at hp
  | cons file rest ih =>
    intro st res res' st' h hnd p hpmem pr hpf hch
    simp only [processIndex] at h
    rcases hidx : indexFile embed fs st.db file now with e | nd
    · simp only [hidx] at h
      exact Except.noConfusion h
    · obtain ⟨n, db'⟩ := nd
      simp only [hidx] at h
      rcases List.mem_cons.mp hpmem with rfl | hpmem
      · unfold indexFile at hidx
        simp only [hpf, if_neg hch] at hidx
        simp only [Except.ok.injEq, Prod.mk.injEq] at hidx
        have hnew : ∃ rec ∈ db'.files, rec.path = p ∧
            rec.hash = calculateFileHash (fsLookup fs p) := by
          rw [← hidx.2]
          unfold upsertFileChunks
          exact ⟨_, List.mem_append_right _ (List.mem_singleton_self _),
            rfl, rfl⟩
        obtain ⟨rec₀, hmem₀, hpath₀, hhash₀⟩ := hnew
        have hkeep := processIndex_preserves embed fs now rest _ _ _ _ h rec₀
          hmem₀ (by
            rw [hpath₀]
            intro hmem
            exact (List.nodup_cons.mp hnd).1 hmem)
        exact ⟨rec₀, hkeep, hpath₀, hhash₀⟩
      · exact ih _ _ _ _ h (List.nodup_cons.mp hnd).2 p hpmem pr hpf hch

theorem foldl_partitionStep_none (fs : FS) (m : List (String × String)) :
    ∀ (files : List String) (a b : List String),
      (∀ p ∈ files, mLookup m p = none) →
      files.foldl (partitionStep fs m) (a, b) = (a ++ files, b) := by
  intro files
  induction files with
  | nil => intro a b _; simp
  | cons f rest ih =>
    intro a b h
    rw [List.foldl_cons]
    have hstep : partitionStep fs m (a, b) f = (a ++ [f], b) := by
      unfold partitionStep
      rw [h f (by simp)]
    rw [hstep, ih _ _ (fun p hp => h p (by simp [hp]))]
    simp

theorem foldl_partitionStep_unchanged (fs : FS) (m : List (String × String)) :
    ∀ (files : List String) (a b : List String),
      (∀ p ∈ files, mLookup m p = some (computeHash (fsLookup fs p))) →
      files.foldl (partitionStep fs m) (a, b) = (a, b ++ files) := by
  intro files
  induction files with
  | nil => intro a b _; simp
  | cons f rest ih =>
    intro a b h
    rw [List.foldl_cons]
    have hstep : partitionStep fs m (a, b) f = (a, b ++ [f]) := by
      unfold partitionStep
      rw [h f (by simp)]
      dsimp only
      rw [if_neg (by push_neg; exact ⟨computeHash_ne_empty _, rfl⟩)]
    rw [hstep, ih _ _ (fun p hp => h p (by simp [hp]))]
    simp

theorem getFilesToIndex_init (fs : FS) (files : List String) :
    getFilesToIndex fs initState files =
      { toIndex := files, toRemove := [], unchanged := [] } := by
  unfold getFilesToIndex
  rw [foldl_partitionStep_none fs initState.manifest.files files [] []
    (fun p _ => rfl)]
  simp [initState]

theorem getFilesToIndex_unchanged (fs : FS) (st : SyncState)
    (files : List String)
    (hm : ∀ p ∈ files, mLookup st.manifest.files p =
      some (computeHash (fsLookup fs p)))
    (hkeys : ∀ k ∈ st.manifest.files.map (fun e => e.1), k ∈ files)
    (hpaths : ∀ q ∈ st.db.files.map (fun f => f.path), q ∈ files) :
    getFilesToIndex fs st files =
      { toIndex := [], toRemove := [], unchanged := files } := by
  have h1 : (st.manifest.files.map (fun e => e.1)).filter
      (fun p => ¬ files.contains p) = [] := by
    rw [List.filter_eq_nil_iff]
    intro k hk
    simp
    exact hkeys k hk
  have h2 : (st.db.files.map (fun f => f.path)).filter
      (fun p => ¬ files.contains p ∧
        ¬ ([] : List String).contains p) = [] := by
    rw [List.filter_eq_nil_iff]
    intro q hq
    simp
    exact hpaths q hq
  unfold getFilesToIndex
  rw [foldl_partitionStep_unchanged fs _ files [] [] hm]
  simp only [h1]
  simp only [h2]
  simp

theorem syncProject_init_spec (embed : String → List ℚ) (model : String)
    (fs : FS) (now : String) (hnodup : (fs.map Prod.fst).Nodup) :
    ∀ (res : SyncResult) (st : SyncState),
      syncProject embed model fs initState now = .ok (res, st) →
      st.manifest.files =
        (discoverFiles fs).map (fun p => (p, computeHash (fsLookup fs p))) ∧
      st.manifest.lastIndexed = now ∧
      st.db.embeddingModel = some model ∧
      (∀ rec ∈ st.db.files, rec.path ∈ discoverFiles fs) ∧
      (∀ p ∈ discoverFiles fs, ∀ pr,
        parseFile p (fsLookup fs p) = .ok pr → pr.chunks ≠ [] →
        ∃ rec ∈ st.db.files, rec.path = p ∧
          rec.hash = calculateFileHash (fsLookup fs p)) := by
  intro res st h
  unfold syncProject at h
  have hmc : checkModelConsistency initState model = (false, initState) := rfl
  have har : applyRemovals initState [] = initState := rfl
  simp only [hmc, getFilesToIndex_init, har] at h
  rcases hpi : processIndex embed fs now (discoverFiles fs) initState
      { added := [], updated := [], removed := [], unchanged := [] }
    with e | rs
  · rw [hpi] at h
    simp at h
  · obtain ⟨res', st₃⟩ := rs
    rw [hpi] at h
    simp only [Except.ok.injEq, Prod.mk.injEq] at h
    obtain ⟨hres, hst⟩ := h
    obtain ⟨hman, hlast⟩ := processIndex_manifest embed fs now _ _ _ _ _ hpi
      (fun p _ => rfl) (discoverFiles_nodup hnodup)
    have hdbp := processIndex_dbpaths embed fs now _ _ _ _ _ hpi
    have hrec := processIndex_record embed fs now _ _ _ _ _ hpi
      (discoverFiles_nodup hnodup)
    rw [← hst]
    refine ⟨?_, rfl, rfl, ?_, ?_⟩
    · dsimp only
      rw [hman]
      simp [initState]
    · intro rec hrecmem
      dsimp only at hrecmem
      rcases hdbp rec hrecmem with h1 | h1
      · simp [initState] at h1
      · exact h1
    · intro p hp pr hpf hch
      obtain ⟨rec, hrecmem, hrest⟩ := hrec p hp pr hpf hch
      exact ⟨rec, hrecmem, hrest⟩

/-- Claim C3 (corrected): after `syncProject` completes from a fresh state,
every manifest entry's hash is the `computeHash` (SHA-256 of the normalized
content) of the file's current content, and whenever the file produced at
least one chunk there is a file record for it — but the record's stored hash
is `calculateFileHash`, the SHA-256 of the raw content, which equals the
manifest hash only when the content is already normalization-fixed.  A file
that produced zero chunks gets a manifest entry with no file record at all
(see the counterexample), so the claim's unconditional record existence and
hash agreement both fail. -/
theorem C3_manifest_entries_and_records (embed : String → List ℚ)
    (model : String) (fs : FS) (now : String)
    (hnodup : (fs.map Prod.fst).Nodup) :
    ∀ p h,
      (p, h) ∈ (syncStateAfter embed model fs initState now).manifest.files →
      h = computeHash (fsLookup fs p) ∧
      ∀ pr, parseFile p (fsLookup fs p) = .ok pr → pr.chunks ≠ [] →
        ∃ rec ∈ (syncStateAfter embed model fs initState now).db.files,
          rec.path = p ∧ rec.hash = calculateFileHash (fsLookup fs p) ∧
          (normalizeContent (fsLookup fs p) = fsLookup fs p →
            rec.hash = h) := by
  intro p h hmem
  unfold syncStateAfter at hmem ⊢
  rcases hs : syncProject embed model fs initState now with e | rs
  · rw [hs] at hmem
    simp [initState] at hmem
  · obtain ⟨res, st⟩ := rs
    rw [hs] at hmem
    dsimp only at hmem
    obtain ⟨hman, _, _, _, hrec⟩ :=
      syncProject_init_spec embed model fs now hnodup res st hs
    rw [hman, List.mem_map] at hmem
    obtain ⟨q, hq, heq⟩ := hmem
    cases heq
    refine ⟨rfl, ?_⟩
    intro pr hpf hch
    obtain ⟨rec, hrecmem, hrp, hrh⟩ := hrec p hq pr hpf hch
    refine ⟨rec, hrecmem, hrp, hrh, ?_⟩
    intro hnorm
    rw [hrh]
    unfold calculateFileHash computeHash
    rw [hnorm]

/-- Claim C3, counterexample: syncing a fresh project containing the single
empty file `knowledge/claude.md` records a manifest entry for it, yet the
store holds no file record at all (the chunker produced zero chunks, so
`indexFile` skips the upsert while the caller still writes the manifest). -/
theorem C3_counterexample :
    (syncStateAfter (fun _ => ([1] : List ℚ)) "model-a"
        [("knowledge/claude.md", "")] initState "T1").manifest.files =
      [("knowledge/claude.md", computeHash "")] ∧
    (syncStateAfter (fun _ => ([1] : List ℚ)) "model-a"
        [("knowledge/claude.md", "")] initState "T1").db.files = [] := by
  exact ⟨by decide, by decide⟩

/-- Claim C3, witness: `C3_manifest_entries_and_records` at a one-file
project whose content carries a trailing space, yielding the file record
with the raw-content hash. -/
theorem C3_witness :
    ∃ rec ∈ (syncStateAfter (fun _ => ([1] : List ℚ)) "model-a"
        [("knowledge/claude.md", "x \n")] initState "T1").db.files,
      rec.path = "knowledge/claude.md" ∧
      rec.hash = calculateFileHash (fsLookup
        [("knowledge/claude.md", "x \n")] "knowledge/claude.md") ∧
      (normalizeContent (fsLookup [("knowledge/claude.md", "x \n")]
          "knowledge/claude.md") =
        fsLookup [("knowledge/claude.md", "x \n")] "knowledge/claude.md" →
        rec.hash = computeHash (fsLookup [("knowledge/claude.md", "x \n")]
          "knowledge/claude.md")) := by
  have h := C3_manifest_entries_and_records (fun _ => ([1] : List ℚ))
    "model-a" [("knowledge/claude.md", "x \n")] "T1" (by decide)
    "knowledge/claude.md"
    (computeHash (fsLookup [("knowledge/claude.md", "x \n")]
      "knowledge/claude.md"))
    (by decide)
  exact h.2 _ rfl (by decide)

/-- Claim C5 (corrected): after a successful `syncProject` from a fresh
state, a second pass over the unchanged tree does no indexing work — its
`ensureIndexFresh` short-circuits with `false` and leaves the state
untouched, and a second `syncProject` classifies every file unchanged and
leaves the store and the manifest's file map intact — but `syncProject`
always rewrites the manifest with a fresh `lastIndexed`, so the claimed
"zero writes, `lastIndexed` not changing" holds only for `ensureIndexFresh`,
not for `syncProject` (see the counterexample). -/
theorem C5_second_sync_state (embed : String → List ℚ) (model : String)
    (fs : FS) (now₁ now₂ : String)
    (hnodup : (fs.map Prod.fst).Nodup) :
    ∀ res₁ st₁, syncProject embed model fs initState now₁ = .ok (res₁, st₁) →
      ensureIndexFresh embed model fs st₁ now₂ = .ok (false, st₁) ∧
      syncProject embed model fs st₁ now₂ =
        .ok ({ added := [], updated := [], removed := [],
               unchanged := discoverFiles fs },
          { db := st₁.db,
            manifest := { files := st₁.manifest.files,
                          lastIndexed := now₂ } }) := by
  intro res₁ st₁ h₁
  obtain ⟨hman, hlast, hmeta, hpaths, _⟩ :=
    syncProject_init_spec embed model fs now₁ hnodup res₁ st₁ h₁
  have hmc : checkModelConsistency st₁ model = (false, st₁) := by
    unfold checkModelConsistency
    rw [hmeta]
    by_cases hm0 : model = "" <;> simp [hm0]
  have hm : ∀ p ∈ discoverFiles fs,
      mLookup st₁.manifest.files p = some (computeHash (fsLookup fs p)) := by
    intro p hp
    rw [hman]
    exact mLookup_map_graph _ _ p hp
  have hkeys : ∀ k ∈ st₁.manifest.files.map (fun e => e.1),
      k ∈ discoverFiles fs := by
    intro k hk
    rw [hman, List.map_map] at hk
    simpa using hk
  have hdbpaths : ∀ q ∈ st₁.db.files.map (fun f => f.path),
      q ∈ discoverFiles fs := by
    intro q hq
    rw [List.mem_map] at hq
    obtain ⟨rec, hrec, rfl⟩ := hq
    exact hpaths rec hrec
  have hpart := getFilesToIndex_unchanged fs st₁ (discoverFiles fs)
    hm hkeys hdbpaths
  have hdb : { st₁.db with embeddingModel := some model } = st₁.db := by
    rw [← hmeta]
  have har : applyRemovals st₁ [] = st₁ := rfl
  constructor
  · unfold ensureIndexFresh
    simp only [hmc, hpart]
    simp
  · unfold syncProject
    simp only [hmc, hpart, har, processIndex]
    rw [hdb]

/-- Claim C5, witness: on a concrete one-file project, the freshness pass
after a first sync reports `false` and leaves the state unchanged. -/
theorem C5_witness :
    ensureIndexFresh (fun _ => ([1] : List ℚ)) "model-a"
        [("knowledge/claude.md", "hello\n")]
        (syncStateAfter (fun _ => ([1] : List ℚ)) "model-a"
          [("knowledge/claude.md", "hello\n")] initState "T1") "T2" =
      .ok (false, syncStateAfter (fun _ => ([1] : List ℚ)) "model-a"
        [("knowledge/claude.md", "hello\n")] initState "T1") := by
  exact (C5_second_sync_state (fun _ => ([1] : List ℚ)) "model-a"
    [("knowledge/claude.md", "hello\n")] "T1" "T2" (by decide) _ _ rfl).1

/-- Claim C5, counterexample: a second `syncProject` over the unchanged tree
moves the manifest's `lastIndexed` from "T1" to "T2" — the second call does
write, refuting "zero writes on the second call (observable via
`lastIndexed` not changing)". -/
theorem C5_counterexample :
    (syncStateAfter (fun _ => ([1] : List ℚ)) "model-a"
        [("knowledge/claude.md", "hello\n")]
        initState "T1").manifest.lastIndexed = "T1" ∧
    (syncStateAfter (fun _ => ([1] : List ℚ)) "model-a"
        [("knowledge/claude.md", "hello\n")]
        (syncStateAfter (fun _ => ([1] : List ℚ)) "model-a"
          [("knowledge/claude.md", "hello\n")] initState "T1")
        "T2").manifest.lastIndexed = "T2" := by
  exact ⟨by decide, by decide⟩

/-- Claim C4, counterexample: a config that sets `protectImportance = 10`
deletes a file of importance 8 via `maxFiles = 0`, refuting the claim for
configs that set `protectImportance`. -/
theorem C4_counterexample :
    (8 : Int) ≤
      ({ path := "knowledge/doc.md", hash := "h", indexedAt := "T0",
         lastAccessed := "", accessCount := 0, importance := 8,
         chunkCount := 1 } : FileRecord).importance ∧
    (forgetStaleFiles
        { files := [{ path := "knowledge/doc.md", hash := "h",
                      indexedAt := "T0", lastAccessed := "",
                      accessCount := 0, importance := 8, chunkCount := 1 }],
          chunks := [], embeddingModel := none }
        { maxFiles := some 0, protectImportance := some 10 } "").1 =
      ["knowledge/doc.md"] ∧
    (forgetStaleFiles
        { files := [{ path := "knowledge/doc.md", hash := "h",
                      indexedAt := "T0", lastAccessed := "",
                      accessCount := 0, importance := 8, chunkCount := 1 }],
          chunks := [], embeddingModel := none }
        { maxFiles := some 0, protectImportance := some 10 } "").2.files =
      [] := by
  exact ⟨by decide, by decide, by decide⟩

end MemoryForge
